import Mathlib

/-! pacman-smartmirror: package filenames, download manager, repo cache

A shallow embedding of the parts of `veecue/pacman-smartmirror` that the
specification speaks about:

* `packet/packet.go` and `impl/pacman/packet.go`: formatting and parsing of
  package filenames through a regular expression;
* `cache/download.go`: the partial-file reader, the background copier,
  `finalizeDownload` and `backgroundDownload`;
* `cache/repocache.go`: `addRepo`, `downloadRepo` and the upgrade list built
  by `updatePackets`.
-/

set_option autoImplicit false

namespace Smartmirror

/-! ## Regular expressions (the fragment of Go `regexp` syntax the repository uses)

Go's `regexp` package matches with leftmost-first (Perl-like) semantics: the
match returned is the one a backtracking matcher finds first, with greedy
repetition and alternatives tried left to right. `.` does not match a newline.
-/

/-- Regular expression syntax: the constructs that occur in `filenameRegex`. -/
inductive Regex where
  | eps : Regex
  | lit : Char → Regex
  | anyPlus : Regex
  | cat : Regex → Regex → Regex
  | alt : Regex → Regex → Regex
  | group : Nat → Regex → Regex
  | bol : Regex
  | eol : Regex
  deriving Repr, DecidableEq

/-- Captured groups, most recent first: group number and captured text. -/
abbrev Caps := List (Nat × List Char)

/-- Greedy `.+`: consume one character other than a newline, then prefer to
consume more, and fall back to the continuation. -/
def anyPlusGo {R : Type} (k : Nat → List Char → Option R) (pos : Nat) :
    List Char → Option R
  | [] => none
  | c :: rest =>
    if c = '\n' then none
    else
      match anyPlusGo k (pos + 1) rest with
      | some r => some r
      | none => k (pos + 1) rest

/-- Backtracking matcher in continuation-passing style. `pos` is the offset of
`s` in the whole input; the continuation receives the offset and text left
after the expression and the groups captured so far. -/
def run {R : Type} : Regex → Nat → List Char → Caps →
    (Nat → List Char → Caps → Option R) → Option R
  | .eps, pos, s, caps, k => k pos s caps
  | .lit c, pos, s, caps, k =>
    match s with
    | [] => none
    | d :: rest => if d = c then k (pos + 1) rest caps else none
  | .anyPlus, pos, s, caps, k => anyPlusGo (fun p t => k p t caps) pos s
  | .cat a b, pos, s, caps, k => run a pos s caps (fun p t cs => run b p t cs k)
  | .alt a b, pos, s, caps, k =>
    match run a pos s caps k with
    | some r => some r
    | none => run b pos s caps k
  | .group i r, pos, s, caps, k =>
    run r pos s caps (fun p t cs => k p t ((i, s.take (p - pos)) :: cs))
  | .bol, pos, s, caps, k => if pos = 0 then k pos s caps else none
  | .eol, pos, s, caps, k => if s = [] then k pos s caps else none

/-- The final continuation: accept, reporting the end offset and the groups. -/
def accept (p : Nat) (_t : List Char) (cs : Caps) : Option (Nat × Caps) := some (p, cs)

/-- Leftmost match: try the expression at `pos`, then at each later offset. -/
def search (re : Regex) (pos : Nat) : List Char → Option (List Char × Caps)
  | [] =>
    match run re pos [] [] accept with
    | some (e, cs) => some (([] : List Char).take (e - pos), cs)
    | none => none
  | c :: rest =>
    match run re pos (c :: rest) [] accept with
    | some (e, cs) => some ((c :: rest).take (e - pos), cs)
    | none => search re (pos + 1) rest

/-- Text of group `i` in a match; a group that did not take part is empty. -/
def capture (cs : Caps) (i : Nat) : String :=
  match cs.lookup i with
  | some t => String.mk t
  | none => ""

/-- Go's `(*Regexp).FindStringSubmatch` for an expression with `n` groups: `[]`
(nil) without a match, otherwise the whole match followed by the `n` groups. -/
def FindStringSubmatch (re : Regex) (n : Nat) (s : String) : List String :=
  match search re 0 s.data with
  | none => []
  | some (whole, cs) => String.mk whole :: (List.range n).map (fun i => capture cs (i + 1))

/-- A literal string as a regular expression. -/
def lits : List Char → Regex
  | [] => .eps
  | c :: cs => .cat (.lit c) (lits cs)

/-- The body shared by both filename patterns:
`(.+)-(.+-.+)-(.+)\.pkg\.tar\.(xz|zst)`. -/
def filenameBody : Regex :=
  .cat (.group 1 .anyPlus)
    (.cat (.lit '-')
      (.cat (.group 2 (.cat .anyPlus (.cat (.lit '-') .anyPlus)))
        (.cat (.lit '-')
          (.cat (.group 3 .anyPlus)
            (.cat (lits ".pkg.tar.".data)
              (.group 4 (.alt (lits "xz".data) (lits "zst".data))))))))

/-! ## `packet/packet.go` -/

namespace packet

/-- The pattern of `packet/packet.go`: `(.+)-(.+-.+)-(.+)\.pkg\.tar\.(xz|zst)`,
without anchors. -/
def filenameRegex : Regex := filenameBody

/-- Packet represents a pacman Packet. -/
structure Packet where
  Name : String
  Version : String
  Arch : String
  Compression : String
  deriving Repr, DecidableEq

/-- Filename returns the corresponding filename the packet is saved as:
`fmt.Sprintf("%s-%s-%s.pkg.tar.%s", ...)`. -/
def Packet.Filename (p : Packet) : String :=
  p.Name ++ "-" ++ p.Version ++ "-" ++ p.Arch ++ ".pkg.tar." ++ p.Compression

/-- FromFilename parses a packet's filename and returns the parsed information. -/
def FromFilename (filename : String) : Except String Packet :=
  match FindStringSubmatch filenameRegex 4 filename with
  | [_, m1, m2, m3, m4] =>
    .ok { Name := m1, Version := m2, Arch := m3, Compression := m4 }
  | _ => .error "Invalid filename"

end packet

/-! ## `impl/pacman/packet.go` -/

namespace pacman

/-- The pattern of `impl/pacman/packet.go`:
`^(.+)-(.+-.+)-(.+)\.pkg\.tar\.(xz|zst)$`. -/
def filenameRegex : Regex := .cat .bol (.cat filenameBody .eol)

/-- The package record of the pacman implementation. -/
structure pkg where
  name : String
  version : String
  arch : String
  compression : String
  deriving Repr, DecidableEq

/-- Filename returns the corresponding filename the packet is saved as. -/
def pkg.Filename (p : pkg) : String :=
  p.name ++ "-" ++ p.version ++ "-" ++ p.arch ++ ".pkg.tar." ++ p.compression

/-- The error value `impl.ErrInvalidFilename`. -/
def ErrInvalidFilename : String := "invalid filename"

/-- PacketFromFilename parses a packet's filename and returns the parsed
information. -/
def PacketFromFilename (filename : String) : Except String pkg :=
  match FindStringSubmatch filenameRegex 4 filename with
  | [_, m1, m2, m3, m4] =>
    .ok { name := m1, version := m2, arch := m3, compression := m4 }
  | _ => .error ErrInvalidFilename

end pacman

/-- The least number of occurrences of `c` in a text matched by an expression. -/
def minCount (c : Char) : Regex → Nat
  | .lit d => if d = c then 1 else 0
  | .cat a b => minCount c a + minCount c b
  | .alt a b => min (minCount c a) (minCount c b)
  | .group _ r => minCount c r
  | _ => 0

/-- The pattern after the third group: `\.pkg\.tar\.(xz|zst)`. -/
def reExt : Regex :=
  .cat (lits ".pkg.tar.".data) (.group 4 (.alt (lits "xz".data) (lits "zst".data)))

/-- The pattern from the third group on: `(.+)\.pkg\.tar\.(xz|zst)`. -/
def reArch : Regex := .cat (.group 3 .anyPlus) reExt

/-- The pattern from the second group on. -/
def reVersion : Regex :=
  .cat (.group 2 (.cat .anyPlus (.cat (.lit '-') .anyPlus))) (.cat (.lit '-') reArch)

/-- The text an expression matches, read off the pattern: a literal matches
itself, `.+` any non-empty text without a newline, a sequence the
concatenation, an alternative either side, a group what its body matches; the
anchors match the empty text (where they may stand is the matcher's business). -/
inductive Matches : Regex → List Char → Prop where
  | eps : Matches .eps []
  | lit (c : Char) : Matches (.lit c) [c]
  | anyPlus (a : List Char) : a ≠ [] → '\n' ∉ a → Matches .anyPlus a
  | cat (a b : Regex) (x y : List Char) : Matches a x → Matches b y → Matches (.cat a b) (x ++ y)
  | altLeft (a b : Regex) (x : List Char) : Matches a x → Matches (.alt a b) x
  | altRight (a b : Regex) (x : List Char) : Matches b x → Matches (.alt a b) x
  | group (i : Nat) (r : Regex) (x : List Char) : Matches r x → Matches (.group i r) x
  | bol : Matches .bol []
  | eol : Matches .eol []

/-- An expression without anchors. -/
def anchorFree : Regex → Bool
  | .cat a b => anchorFree a && anchorFree b
  | .alt a b => anchorFree a && anchorFree b
  | .group _ r => anchorFree r
  | .bol => false
  | .eol => false
  | _ => true

/-- A filename field: not empty, no newline. -/
def Field (a : List Char) : Prop := a ≠ [] ∧ '\n' ∉ a

/-- A compression tag of the pattern. -/
def IsExt (e : List Char) : Prop := e = "xz".data ∨ e = "zst".data

/-- A hyphen-free filename field. -/
def Plain (a : List Char) : Prop := Field a ∧ '-' ∉ a

/-- Well-formed fields of a package identity: a non-empty name, a version
`<pkgver>-<pkgrel>` with both parts non-empty and hyphen-free, a non-empty
hyphen-free architecture, compression tag `xz` or `zst`, and no newline. -/
def WellFormed (name version arch compression : String) : Prop :=
  Field name.data ∧
  (∃ pkgver pkgrel : String,
    version = pkgver ++ "-" ++ pkgrel ∧ Plain pkgver.data ∧ Plain pkgrel.data) ∧
  Plain arch.data ∧ (compression = "xz" ∨ compression = "zst")

/-! ## `cache/download.go`: the download manager -/

namespace cache

open packet

/-- A Go `error` value: `none` is `nil`. -/
abbrev Error := Option String

/-- Go's `errors.Wrap(err, msg)`. -/
def wrap (err : String) (msg : String) : String := msg ++ ": " ++ err

/-- Go's `path.Join(dir, name)` for a directory and a plain file name. -/
def pathJoin (dir name : String) : String := dir ++ "/" ++ name

/-- The record `download`: packet, repository and completion channel (`none` is
a nil channel; a channel is identified by a number). -/
structure download where
  P : Packet
  R : String
  Chan : Option Nat
  deriving Repr, DecidableEq

/-- ongoingDownload stores information about an ongoing download. -/
structure ongoingDownload where
  written : Int
  Dl : download
  filesize : Int
  filename : String
  deriving Repr, DecidableEq

/-- Modelled from the spec: the cached package set `packet.Set` (its source is
not part of the sources at hand), "a mapping from filename to package
identity" that "supports `ByFilename(s)`, `FindOtherVersions(p)` (all entries
with the same (name, arch) as `p`, regardless of version), `Insert(p)`,
`Delete(filename)`". The entries are kept in a list. -/
abbrev PacketSet := List Packet

/-- Modelled from the spec: `ByFilename(s)`, the entry stored under filename
`s`, if any. -/
def PacketSet.ByFilename (s : PacketSet) (filename : String) : Option Packet :=
  s.find? (fun e => e.Filename = filename)

/-- Modelled from the spec: `FindOtherVersions(p)`, "all entries with the same
(name, arch) as `p`, regardless of version". -/
def PacketSet.FindOtherVersions (s : PacketSet) (p : Packet) : List Packet :=
  s.filter (fun e => e.Name = p.Name ∧ e.Arch = p.Arch)

/-- Modelled from the spec: `Delete(filename)` drops the entry stored under the
filename. -/
def PacketSet.Delete (s : PacketSet) (filename : String) : PacketSet :=
  s.filter (fun e => e.Filename ≠ filename)

/-- Modelled from the spec: `Insert(p)` stores `p` under its filename. -/
def PacketSet.Insert (s : PacketSet) (p : Packet) : PacketSet :=
  p :: s.filter (fun e => e.Filename ≠ p.Filename)

/-- A Go `map[string]V` as an association list with one entry per key. -/
abbrev GoMap (V : Type) := List (String × V)

/-- The lookup `m[k]`. -/
def GoMap.get {V : Type} (m : GoMap V) (k : String) : Option V := m.lookup k

/-- The assignment `m[k] = v`. -/
def GoMap.set {V : Type} (m : GoMap V) (k : String) (v : V) : GoMap V :=
  (k, v) :: m.filter (fun e => e.1 ≠ k)

/-- The statement `delete(m, k)`. -/
def GoMap.delete {V : Type} (m : GoMap V) (k : String) : GoMap V :=
  m.filter (fun e => e.1 ≠ k)

/-- What `http.DefaultClient.Do` gives for a request: a transport error, or a
response with its status code and the `ContentLength` the client reports
(`-1` when the length is unknown). -/
inductive Response where
  | transportError : Response
  | response (StatusCode : Nat) (ContentLength : Int) : Response
  deriving Repr, DecidableEq

/-- The response body as `io.Copy` sees it: the sizes of the chunks it yields
and the error that ends it (`none` for a clean end of stream). -/
structure Body where
  chunks : List Nat
  err : Error
  deriving Repr, DecidableEq

/-- The collaborators of the download manager that are not part of the sources
at hand, and the environment it runs in. -/
structure Env where
  /-- The function `packet.CompareVersions`. -/
  CompareVersions : String → String → Int
  /-- The method `mirror.PacketURL(&d.P, &d.R)`. -/
  PacketURL : String → Packet → String → String
  /-- The upstream's answer to a GET of a URL. -/
  httpDo : String → Response
  /-- Whether `os.Create` of a path succeeds. -/
  createOk : String → Bool
  /-- The body of the accepted response for a URL. -/
  body : String → Body
  /-- Whether `os.Rename` from a path succeeds. -/
  renameOk : String → Bool

/-- The cache `Cache` (the fields `download.go` uses) together with what the
code acts on: the files on disk, the values sent on channels so far (oldest
first), the upstream requests issued so far, and the next fresh channel. -/
structure State where
  directory : String
  mirrors : List String
  packets : PacketSet
  downloads : GoMap ongoingDownload
  files : List String
  sent : List (Nat × Error)
  requests : List String
  nextChan : Nat
  deriving Repr, DecidableEq

/-- The call `os.Remove(name)`. -/
def osRemove (files : List String) (name : String) : List String :=
  files.filter (fun f => f ≠ name)

/-- The method `download.Callback`: send on the channel unless it is nil. -/
def download.Callback (d : download) (st : State) (err : Error) : State :=
  match d.Chan with
  | some ch => { st with sent := st.sent ++ [(ch, err)] }
  | none => st

/-- The method `countWriter.Write` for a chunk of `p` bytes that the file
accepts: the counter grows by the number of bytes written. -/
def countWriter.Write (written : Int) (p : Nat) : Nat × Int :=
  (p, written + (p : Int))

/-- The call `io.Copy(&countWriter{f, &dl.written}, resp.Body)`: the number of
bytes copied and the counter afterwards. -/
def ioCopy : List Nat → Int × Int → Int × Int
  | [], acc => acc
  | p :: rest, (w, written) =>
    let r := countWriter.Write written p
    ioCopy rest (w + (r.1 : Int), r.2)

/-- The eviction loop of `finalizeDownload` over `FindOtherVersions(&dl.Dl.P)`. -/
def evict (env : Env) (P : Packet) : List Packet → State → State
  | [], st => st
  | p :: rest, st =>
    let diff := env.CompareVersions p.Version P.Version
    if diff < 0 then
      evict env P rest
        { st with
          files := osRemove st.files (pathJoin st.directory p.Filename)
          packets := st.packets.Delete p.Filename }
    else evict env P rest st

/-- The method `Cache.finalizeDownload`. -/
def finalizeDownload (env : Env) (st : State) (dl : ongoingDownload) : State :=
  if env.renameOk dl.filename then
    let st1 := { st with
      files := pathJoin st.directory dl.Dl.P.Filename :: osRemove st.files dl.filename }
    let st2 := evict env dl.Dl.P (st1.packets.FindOtherVersions dl.Dl.P) st1
    let st3 := { st2 with
      packets := st2.packets.Insert dl.Dl.P
      downloads := st2.downloads.delete dl.Dl.P.Filename }
    dl.Dl.Callback st3 none
  else
    let err := wrap "rename failed" "Failed moving file"
    let st1 := { st with
      files := osRemove st.files dl.filename
      downloads := st.downloads.delete dl.Dl.P.Filename }
    dl.Dl.Callback st1 (some err)

/-- The background copier that `startDownload` spawns, run to its end, for a
response body `body`; it returns the download with its final `written`. -/
def copier (env : Env) (body : Body) (st : State) (dl : ongoingDownload) :
    State × ongoingDownload :=
  let r := ioCopy body.chunks (0, dl.written)
  let w := r.1
  let dl1 := { dl with written := r.2 }
  match body.err with
  | some e =>
    let err := wrap e "Error downloading to local cache"
    let st1 := { st with
      files := osRemove st.files dl1.filename
      downloads := st.downloads.delete dl1.Dl.P.Filename }
    (dl1.Dl.Callback st1 (some err), dl1)
  | none =>
    if w < dl1.filesize then
      let err := "Too few bytes read while downloading to cache"
      let st1 := { st with
        files := osRemove st.files dl1.filename
        downloads := st.downloads.delete dl1.Dl.P.Filename }
      (dl1.Dl.Callback st1 (some err), dl1)
    else (finalizeDownload env st dl1, dl1)

/-- The loop of `Cache.startDownload` over the mirrors, up to the point where
the background copier is spawned. It returns the URL that was accepted along
with the ongoing download. -/
def startDownloadLoop (env : Env) (d : download) :
    List String → State → Except String (ongoingDownload × String) × State
  | [], st => (.error "Packet could not be downloaded from any mirror", st)
  | mirror :: rest, st =>
    let url := env.PacketURL mirror d.P d.R
    let st1 := { st with requests := st.requests ++ [url] }
    match env.httpDo url with
    | .transportError => startDownloadLoop env d rest st1
    | .response code len =>
      if code ≠ 200 then startDownloadLoop env d rest st1
      else
        let dl : ongoingDownload :=
          { written := 0, Dl := d, filesize := len,
            filename := pathJoin st.directory (d.P.Filename ++ ".part") }
        if env.createOk dl.filename then
          let st2 := { st1 with
            files := dl.filename :: osRemove st1.files dl.filename
            downloads := st1.downloads.set dl.Dl.P.Filename dl }
          (.ok (dl, url), st2)
        else (.error (wrap "create failed" "Error creating cache file"), st1)

/-- The method `Cache.startDownload`, up to the spawning of the copier. -/
def startDownload (env : Env) (st : State) (d : download) :
    Except String (ongoingDownload × String) × State :=
  startDownloadLoop env d st.mirrors st

/-- An accepted download run to its end: the copier on the accepted response's
body, then (when it gets that far) `finalizeDownload`. -/
def runDownload (env : Env) (st : State) (started : ongoingDownload × String) :
    State × ongoingDownload :=
  copier env (env.body started.2) st started.1

/-- The error of `backgroundDownload` for a packet that is being downloaded. -/
def errAlreadyDownloading : String := "Packet already being downloaded"

/-- The error of `backgroundDownload` for a packet that is in the cache. -/
def errAlreadyCached : String := "Packet already in cache"

/-- The method `Cache.backgroundDownload`: admission under the lock, start of
the download, and the blocking receive on the fresh channel `result`. -/
def backgroundDownload (env : Env) (st : State) (dl : download) : Error × State :=
  if (st.downloads.get dl.P.Filename).isSome then (some errAlreadyDownloading, st)
  else if (st.packets.ByFilename dl.P.Filename).isSome then (some errAlreadyCached, st)
  else
    let result := st.nextChan
    let dl1 := { dl with Chan := some result }
    let st1 := { st with nextChan := st.nextChan + 1 }
    match startDownload env st1 dl1 with
    | (.error e, st2) => (some (wrap e "Error on starting background download"), st2)
    | (.ok started, st2) =>
      let st3 := (runDownload env st2 started).1
      match st3.sent.lookup result with
      | some (some e) => (some (wrap e "Error during background download"), st3)
      | _ => (none, st3)

/-- The state every failing path of the copier and of `finalizeDownload`
leaves: temp file removed, ongoing entry removed, the error sent. -/
def failedState (st : State) (dl : ongoingDownload) (e : String) : State :=
  dl.Dl.Callback
    { st with
      files := osRemove st.files dl.filename
      downloads := st.downloads.delete dl.Dl.P.Filename } (some e)

/-- The set is keyed by filename: entries with the same filename are the same
entry. -/
def FilenameKeyed (s : List Packet) : Prop :=
  ∀ a ∈ s, ∀ b ∈ s, a.Filename = b.Filename → a = b

/-! ### A sample run: scenario S4 of the specification -/

/-- The order of two texts, character by character. -/
def lexCompare : List Char → List Char → Int
  | [], [] => 0
  | [], _ :: _ => -1
  | _ :: _, [] => 1
  | a :: as, b :: bs =>
    if a.toNat < b.toNat then -1
    else if b.toNat < a.toNat then 1
    else lexCompare as bs

/-- A stand-in for `packet.CompareVersions` on the sample versions: the order
of the version strings. -/
def sampleCompare (a b : String) : Int := lexCompare a.data b.data

/-- One mirror that answers every GET with status 200 and ten bytes. -/
def sampleEnv : Env where
  CompareVersions := sampleCompare
  PacketURL := fun mirror p _ => mirror ++ "/" ++ p.Filename
  httpDo := fun _ => .response 200 10
  createOk := fun _ => true
  body := fun _ => { chunks := [4, 6], err := none }
  renameOk := fun _ => true

/-- The packet `foo` 1.0-1. -/
def foo1 : Packet := ⟨"foo", "1.0-1", "x86_64", "zst"⟩

/-- The packet `foo` 2.0-1. -/
def foo2 : Packet := ⟨"foo", "2.0-1", "x86_64", "zst"⟩

/-- The packet `bar` 0.9-3. -/
def bar1 : Packet := ⟨"bar", "0.9-3", "any", "xz"⟩

/-- The cache holds `foo` 1.0-1 and `bar` 0.9-3. -/
def sampleState : State where
  directory := "/var/cache"
  mirrors := ["http://m1"]
  packets := [foo1, bar1]
  downloads := []
  files := ["/var/cache/foo-1.0-1-x86_64.pkg.tar.zst", "/var/cache/bar-0.9-3-any.pkg.tar.xz"]
  sent := []
  requests := []
  nextChan := 0

/-- A download of `foo` 2.0-1 that reports to channel 7. -/
def sampleDownload : download := ⟨foo2, "core", some 7⟩

/-- The ongoing download and accepted URL that `startDownload` gives for
`sampleDownload`. -/
def sampleStarted : ongoingDownload × String :=
  (⟨0, sampleDownload, 10, "/var/cache/foo-2.0-1-x86_64.pkg.tar.zst.part"⟩,
    "http://m1/foo-2.0-1-x86_64.pkg.tar.zst")

/-- The state after `startDownload` of `sampleDownload` in `sampleState`. -/
def sampleStartedState : State :=
  { sampleState with
    files := "/var/cache/foo-2.0-1-x86_64.pkg.tar.zst.part" :: sampleState.files
    downloads := [("foo-2.0-1-x86_64.pkg.tar.zst", sampleStarted.1)]
    requests := ["http://m1/foo-2.0-1-x86_64.pkg.tar.zst"] }

/-- Scenario S5: the upstream declares ten bytes and the body ends after six. -/
def truncatedEnv : Env :=
  { sampleEnv with body := fun _ => { chunks := [6], err := none } }

/-- An upstream that reports no length (`ContentLength` is `-1`) and sends five
bytes. -/
def unknownLengthEnv : Env :=
  { sampleEnv with
    httpDo := fun _ => .response 200 (-1)
    body := fun _ => { chunks := [5], err := none } }

/-- What `startDownload` gives for `sampleDownload` under `unknownLengthEnv`. -/
def unknownLengthStarted : ongoingDownload × String :=
  (⟨0, sampleDownload, -1, "/var/cache/foo-2.0-1-x86_64.pkg.tar.zst.part"⟩,
    "http://m1/foo-2.0-1-x86_64.pkg.tar.zst")

/-- The state after that `startDownload`. -/
def unknownLengthState : State :=
  { sampleState with
    files := "/var/cache/foo-2.0-1-x86_64.pkg.tar.zst.part" :: sampleState.files
    downloads := [("foo-2.0-1-x86_64.pkg.tar.zst", unknownLengthStarted.1)]
    requests := ["http://m1/foo-2.0-1-x86_64.pkg.tar.zst"] }

/-! ### The partial-file reader -/

/-- The file behind `R`, an `*os.File` opened for reading on the temp file: its
bytes and its read offset. `Read` and `Seek` below follow the operating
system's `read` and `lseek`, which is what `os.File` exposes. -/
structure File where
  content : List Nat
  offset : Nat
  deriving Repr, DecidableEq

/-- The call `R.Read(p)` with a buffer of `n` bytes: the bytes from the offset
on, at most `n`, and end of file when none is left. -/
def File.Read (f : File) (n : Nat) : List Nat × Error × File :=
  let bytes := (f.content.drop f.offset).take n
  if bytes = [] ∧ 0 < n then ([], some "EOF", f)
  else (bytes, none, { f with offset := f.offset + bytes.length })

/-- The call `R.Seek(offset, whence)`: whence 0, 1, 2 is relative to the start,
the current offset, the end of the file as it is now; a negative target or
another whence is an error that leaves the offset alone. -/
def File.Seek (f : File) (offset : Int) (whence : Int) : Int × Error × File :=
  let target : Option Int :=
    if whence = 0 then some offset
    else if whence = 1 then some ((f.offset : Int) + offset)
    else if whence = 2 then some ((f.content.length : Int) + offset)
    else none
  match target with
  | some t =>
    if t < 0 then (0, some "invalid argument", f)
    else (t, none, { f with offset := t.toNat })
  | none => (0, some "invalid argument", f)

/-- The reader `dynamicLimitReaderWithSize`. `Limit` points to the download's
`written` counter; `Read` below takes the value it loads from it. -/
structure dynamicLimitReaderWithSize where
  R : File
  Size : Int
  pos : Int
  deriving Repr, DecidableEq

/-- The method `dynamicLimitReaderWithSize.Read` with a buffer of `n` bytes,
`limit` being the value of `atomic.LoadInt64(d.Limit)`. -/
def dynamicLimitReaderWithSize.Read (d : dynamicLimitReaderWithSize) (limit : Int) (n : Nat) :
    (List Nat × Error) × dynamicLimitReaderWithSize :=
  if d.pos ≥ limit then (([], none), d)
  else
    let n1 : Nat := if d.pos + (n : Int) > limit then (limit - d.pos).toNat else n
    let r := d.R.Read n1
    ((r.1, r.2.1), { d with R := r.2.2, pos := d.pos + (r.1.length : Int) })

/-- The method `dynamicLimitReaderWithSize.Seek`; `io.SeekStart`,
`io.SeekCurrent` and `io.SeekEnd` are 0, 1 and 2. -/
def dynamicLimitReaderWithSize.Seek (d : dynamicLimitReaderWithSize) (offset : Int)
    (whence : Int) : (Int × Error) × dynamicLimitReaderWithSize :=
  let pos : Option Int :=
    if whence = 0 then some offset
    else if whence = 1 then some (d.pos + offset)
    else if whence = 2 then some (d.Size + offset)
    else none
  match pos with
  | none => ((d.pos, some "Invalid whence"), d)
  | some p =>
    let d1 := { d with pos := p, R := (d.R.Seek offset whence).2.2 }
    if p > d.Size ∨ p < 0 then ((p, some "Seek out of bounds"), d1)
    else ((p, none), d1)

/-- A reader over a ten-byte file whose byte at offset `i` is `i`, declared
size ten, at the start. -/
def sampleReader : dynamicLimitReaderWithSize :=
  { R := { content := [0, 1, 2, 3, 4, 5, 6, 7, 8, 9], offset := 0 }, Size := 10, pos := 0 }

/-! ### `cache/repocache.go` -/

/-- What `c.r.MatchPath` returns on a match: the repository implementation's
`GetDB`, the matched path and the upstream URLs. -/
structure Match where
  GetDB : String → String
  MatchedPath : String
  UpstreamURLs : List String

/-- The collaborators of the repo cache that are not part of the sources at
hand: the router, and what the download manager's `GetFile` answers for a
file (an error, or the `async` flag) and later sends on the `result` channel. -/
structure RepoEnv where
  MatchPath : String → Option Match
  GetFile : String → List String → Except String Bool
  result : String → Error

/-- The fields of `Cache` that `repocache.go` uses, and the files `GetFile` was
asked for so far. -/
structure RepoState where
  directory : String
  repos : List String
  fetched : List String
  deriving Repr, DecidableEq

/-- The method `Cache.downloadRepo`. -/
def downloadRepo (env : RepoEnv) (st : RepoState) (dirpath : String) : Error × RepoState :=
  match env.MatchPath dirpath with
  | none => (some ("no match found for repo " ++ dirpath), st)
  | some m =>
    let file := m.GetDB m.MatchedPath
    match env.MatchPath file with
    | none => (some ("no match found for repo " ++ dirpath), st)
    | some m2 =>
      let path := pathJoin st.directory file
      let st1 := { st with fetched := st.fetched ++ [path] }
      match env.GetFile path m2.UpstreamURLs with
      | .error e => (some ("error downloading database: " ++ e), st1)
      | .ok async =>
        if async then
          match env.result path with
          | some e => (some ("error downloading database: " ++ e), st1)
          | none => (none, st1)
        else (none, st1)

/-- The error text of `addRepo` for a repository that is registered. -/
def errRepoAvailable : String := "repo already available"

/-- The method `Cache.addRepo`. -/
def addRepo (env : RepoEnv) (st : RepoState) (repo : String) : Error × RepoState :=
  if repo ∈ st.repos then (some errRepoAvailable, st)
  else downloadRepo env st repo

/-- A router that matches every path, and a download manager that fetches
every file in the background without error. -/
def sampleRepoEnv : RepoEnv where
  MatchPath := fun path =>
    some { GetDB := fun matched => matched ++ "/core.db", MatchedPath := path,
           UpstreamURLs := ["http://m1/" ++ path] }
  GetFile := fun _ _ => .ok true
  result := fun _ => none

/-- A repo cache with no registered repository. -/
def sampleRepoState : RepoState := { directory := "/var/cache", repos := [], fetched := [] }

/-- The inner loop of the `ParseDB` callback in `updatePackets`: the first
cached version older than `p` appends the path and breaks. -/
def visitLoop (CompareVersions : String → String → Int) (p : pacman.pkg) (path : String) :
    List pacman.pkg → List String → List String
  | [], toDownload => toDownload
  | other :: rest, toDownload =>
    if CompareVersions p.version other.version > 0 then toDownload ++ [path]
    else visitLoop CompareVersions p path rest toDownload

/-- The list `toDownload` that `updatePackets` builds: `ParseDB` calls the
callback on each entry of the index in turn; `FindOtherVersions` is the
answer of the repo's cached set. -/
def toDownload (CompareVersions : String → String → Int)
    (FindOtherVersions : pacman.pkg → List pacman.pkg) (MatchedPath : String)
    (entries : List pacman.pkg) : List String :=
  entries.foldl
    (fun acc p =>
      visitLoop CompareVersions p (pathJoin MatchedPath p.Filename) (FindOtherVersions p) acc)
    []

/-- An upstream entry is out of date in the cache: some cached version of it
is strictly older. -/
def OutOfDate (CompareVersions : String → String → Int)
    (FindOtherVersions : pacman.pkg → List pacman.pkg) (p : pacman.pkg) : Prop :=
  ∃ other ∈ FindOtherVersions p, CompareVersions p.version other.version > 0

/-- The upstream entry `foo` 2.0-1. -/
def upstreamFoo : pacman.pkg := ⟨"foo", "2.0-1", "x86_64", "zst"⟩

/-- The cached entry `foo` 1.0-1. -/
def cachedFoo : pacman.pkg := ⟨"foo", "1.0-1", "x86_64", "zst"⟩

/-- A cached set that holds `foo` 1.0-1 only. -/
def sampleOthers (p : pacman.pkg) : List pacman.pkg :=
  if p.name = "foo" ∧ p.arch = "x86_64" then [cachedFoo] else []

end cache

/-! ## Theorems: the matcher -/

theorem anyPlusGo_none {R : Type} (k : Nat → List Char → Option R) :
    ∀ (t : List Char) (pos : Nat),
      (∀ b t', b ≠ [] → t = b ++ t' → k (pos + b.length) t' = none) →
      anyPlusGo k pos t = none := by
  intro t
  induction t with
  | nil => intro pos _; rfl
  | cons c rest ih =>
    intro pos h
    unfold anyPlusGo
    split
    · rfl
    · have h1 : anyPlusGo k (pos + 1) rest = none := by
        apply ih
        intro b t' hb ht
        have := h (c :: b) t' (by simp) (by simp [ht])
        simpa [Nat.add_assoc, Nat.add_comm 1] using this
      rw [h1]
      have := h [c] rest (by simp) (by simp)
      simpa using this

theorem anyPlusGo_greedy {R : Type} (k : Nat → List Char → Option R) :
    ∀ (a t : List Char) (pos : Nat) (r : R),
      a ≠ [] → '\n' ∉ a → k (pos + a.length) t = some r →
      (∀ b t', b ≠ [] → t = b ++ t' → k (pos + a.length + b.length) t' = none) →
      anyPlusGo k pos (a ++ t) = some r := by
  intro a
  induction a with
  | nil => intro t pos r h; exact absurd rfl h
  | cons c a ih =>
    intro t pos r _ hnl hk hfail
    have hc : c ≠ '\n' := fun h => hnl (by simp [h])
    have hnl' : '\n' ∉ a := fun h => hnl (by simp [h])
    show anyPlusGo k pos (c :: (a ++ t)) = some r
    unfold anyPlusGo
    rw [if_neg hc]
    cases a with
    | nil =>
      have h1 : anyPlusGo k (pos + 1) ([] ++ t) = none := by
        apply anyPlusGo_none
        intro b t' hb ht
        have := hfail b t' hb ht
        simpa using this
      rw [h1]
      simpa using hk
    | cons d a =>
      have h1 : anyPlusGo k (pos + 1) ((d :: a) ++ t) = some r := by
        apply ih t (pos + 1) r (by simp) hnl'
        · simpa [Nat.add_assoc, Nat.add_comm 1] using hk
        · intro b t' hb ht
          have := hfail b t' hb ht
          simpa [Nat.add_assoc, Nat.add_comm 1] using this
      rw [h1]

theorem anyPlusGo_sound {R : Type} (k : Nat → List Char → Option R) :
    ∀ (t : List Char) (pos : Nat) (r : R), anyPlusGo k pos t = some r →
      ∃ b t', b ≠ [] ∧ t = b ++ t' ∧ '\n' ∉ b ∧ k (pos + b.length) t' = some r := by
  intro t
  induction t with
  | nil => intro pos r h; simp [anyPlusGo] at h
  | cons c rest ih =>
    intro pos r h
    unfold anyPlusGo at h
    split at h
    · cases h
    · rename_i hc
      cases h1 : anyPlusGo k (pos + 1) rest with
      | some r1 =>
        rw [h1] at h
        obtain ⟨b, t', hb, ht, hnl, hk⟩ := ih (pos + 1) r1 h1
        refine ⟨c :: b, t', by simp, by simp [ht], ?_, ?_⟩
        · simp only [List.mem_cons, not_or]
          exact ⟨fun e => hc e.symm, hnl⟩
        · simp only [Option.some.injEq] at h
          subst h
          simpa [Nat.add_assoc, Nat.add_comm 1] using hk
      | none =>
        rw [h1] at h
        refine ⟨[c], rest, by simp, by simp, ?_, by simpa using h⟩
        simp only [List.mem_singleton]
        exact fun e => hc e.symm

theorem run_count {R : Type} (c : Char) :
    ∀ (re : Regex) (pos : Nat) (s : List Char) (caps : Caps)
      (k : Nat → List Char → Caps → Option R) (res : R),
      run re pos s caps k = some res →
      ∃ p t cs, minCount c re + t.count c ≤ s.count c ∧ k p t cs = some res := by
  intro re
  induction re with
  | eps =>
    intro pos s caps k res h
    exact ⟨pos, s, caps, by simp [minCount], h⟩
  | lit d =>
    intro pos s caps k res h
    cases s with
    | nil => simp [run] at h
    | cons e rest =>
      simp only [run] at h
      split at h
      · rename_i hd
        refine ⟨pos + 1, rest, caps, ?_, h⟩
        subst hd
        by_cases hc : e = c
        · simp [minCount, hc, Nat.add_comm]
        · simp [minCount, hc, List.count_cons]
      · cases h
  | anyPlus =>
    intro pos s caps k res h
    simp only [run] at h
    obtain ⟨b, t', _, ht, _, hk⟩ := anyPlusGo_sound _ _ _ _ h
    refine ⟨_, t', caps, ?_, hk⟩
    simp [minCount, ht]
  | cat a b iha ihb =>
    intro pos s caps k res h
    simp only [run] at h
    obtain ⟨p1, t1, cs1, h1, hk1⟩ := iha _ _ _ _ _ h
    obtain ⟨p2, t2, cs2, h2, hk2⟩ := ihb _ _ _ _ _ hk1
    refine ⟨p2, t2, cs2, ?_, hk2⟩
    simp only [minCount]
    omega
  | alt a b iha ihb =>
    intro pos s caps k res h
    simp only [run] at h
    cases h1 : run a pos s caps k with
    | some r1 =>
      rw [h1] at h
      simp only [Option.some.injEq] at h
      subst h
      obtain ⟨p1, t1, cs1, hc1, hk1⟩ := iha _ _ _ _ _ h1
      refine ⟨p1, t1, cs1, ?_, hk1⟩
      simp only [minCount]
      omega
    | none =>
      rw [h1] at h
      obtain ⟨p1, t1, cs1, hc1, hk1⟩ := ihb _ _ _ _ _ h
      refine ⟨p1, t1, cs1, ?_, hk1⟩
      simp only [minCount]
      omega
  | group i r ih =>
    intro pos s caps k res h
    simp only [run] at h
    obtain ⟨p1, t1, cs1, hc1, hk1⟩ := ih _ _ _ _ _ h
    exact ⟨p1, t1, _, by simpa [minCount] using hc1, hk1⟩
  | bol =>
    intro pos s caps k res h
    simp only [run] at h
    split at h
    · exact ⟨pos, s, caps, by simp [minCount], h⟩
    · cases h
  | eol =>
    intro pos s caps k res h
    simp only [run] at h
    split at h
    · exact ⟨pos, s, caps, by simp [minCount], h⟩
    · cases h

theorem run_none_of_count {R : Type} (c : Char) (re : Regex) (pos : Nat) (s : List Char)
    (caps : Caps) (k : Nat → List Char → Caps → Option R)
    (h : s.count c < minCount c re) : run re pos s caps k = none := by
  cases hr : run re pos s caps k with
  | none => rfl
  | some res =>
    obtain ⟨_, t, _, hc, _⟩ := run_count c re pos s caps k res hr
    omega

theorem run_cat {R : Type} (a b : Regex) (pos : Nat) (s : List Char) (caps : Caps)
    (k : Nat → List Char → Caps → Option R) :
    run (.cat a b) pos s caps k = run a pos s caps (fun p t cs => run b p t cs k) := rfl

theorem run_group {R : Type} (i : Nat) (a : Regex) (pos : Nat) (s : List Char) (caps : Caps)
    (k : Nat → List Char → Caps → Option R) :
    run (.group i a) pos s caps k
      = run a pos s caps (fun p t cs => k p t ((i, s.take (p - pos)) :: cs)) := rfl

theorem run_anyPlus {R : Type} (pos : Nat) (s : List Char) (caps : Caps)
    (k : Nat → List Char → Caps → Option R) :
    run .anyPlus pos s caps k = anyPlusGo (fun p t => k p t caps) pos s := rfl

theorem run_lit_cons {R : Type} (c : Char) (pos : Nat) (s : List Char) (caps : Caps)
    (k : Nat → List Char → Caps → Option R) :
    run (.lit c) pos (c :: s) caps k = k (pos + 1) s caps := by
  simp [run]

theorem run_reExt {R : Type} (e : List Char) (he : IsExt e) (pos : Nat) (caps : Caps)
    (k : Nat → List Char → Caps → Option R) :
    run reExt pos (".pkg.tar.".data ++ e) caps k
      = k (pos + 9 + e.length) [] ((4, e) :: caps) := by
  rcases he with rfl | rfl
  · simp [reExt, run, lits, Nat.add_assoc]
    split
    · rename_i h; exact h.symm
    · rename_i h; exact h.symm
  · simp [reExt, run, lits, Nat.add_assoc]

theorem count_suffix_lt (c : Char) (t b t' : List Char) (hb : b ≠ []) (ht : t = b ++ t')
    (hc : t.head? = some c) : t'.count c < t.count c := by
  cases b with
  | nil => exact absurd rfl hb
  | cons d b =>
    subst ht
    simp only [List.cons_append, List.head?_cons, Option.some.injEq] at hc
    subst hc
    simp [List.count_cons, List.count_append]
    omega

theorem run_reArch {R : Type} (a e : List Char) (ha : Field a) (he : IsExt e) (pos : Nat)
    (caps : Caps) (k : Nat → List Char → Caps → Option R) (r : R)
    (hk : k (pos + a.length + 9 + e.length) [] ((4, e) :: (3, a) :: caps) = some r) :
    run reArch pos (a ++ (".pkg.tar.".data ++ e)) caps k = some r := by
  unfold reArch
  rw [run_cat, run_group, run_anyPlus]
  apply anyPlusGo_greedy _ a _ pos r ha.1 ha.2
  · simp only [Nat.add_sub_cancel_left, List.take_left']
    rw [run_reExt e he]
    exact hk
  · intro b t' hb ht
    apply run_none_of_count '.'
    have h3 : (".pkg.tar.".data ++ e).count '.' = 3 := by
      rcases he with rfl | rfl <;> decide
    have := count_suffix_lt '.' _ b t' hb ht (by rfl)
    have hm : minCount '.' reExt = 3 := by decide
    omega

theorem count_ext (e : List Char) (he : IsExt e) : (".pkg.tar.".data ++ e).count '-' = 0 := by
  rcases he with rfl | rfl <;> decide

theorem count_arch (a e : List Char) (ha : Plain a) (he : IsExt e) :
    (a ++ (".pkg.tar.".data ++ e)).count '-' = 0 := by
  rw [List.count_append, count_ext e he, List.count_eq_zero.mpr ha.2]

theorem run_reVersion {R : Type} (v1 v2 a e : List Char) (hv1 : Plain v1) (hv2 : Plain v2)
    (ha : Plain a) (he : IsExt e) (pos : Nat) (caps : Caps)
    (k : Nat → List Char → Caps → Option R) (r : R)
    (hk : k (pos + v1.length + 1 + v2.length + 1 + a.length + 9 + e.length) []
      ((4, e) :: (3, a) :: (2, v1 ++ '-' :: v2) :: caps) = some r) :
    run reVersion pos (v1 ++ '-' :: (v2 ++ '-' :: (a ++ (".pkg.tar.".data ++ e)))) caps k
      = some r := by
  have hca := count_arch a e ha he
  have hc2 : (v2 ++ '-' :: (a ++ (".pkg.tar.".data ++ e))).count '-' = 1 := by
    rw [List.count_append, List.count_cons_self, hca, List.count_eq_zero.mpr hv2.2]
  unfold reVersion
  rw [run_cat, run_group, run_cat, run_anyPlus]
  apply anyPlusGo_greedy _ v1 _ pos r hv1.1.1 hv1.1.2
  · show run (.cat (.lit '-') .anyPlus) _ _ _ _ = some r
    rw [run_cat, run_lit_cons, run_anyPlus]
    apply anyPlusGo_greedy _ v2 _ _ r hv2.1.1 hv2.1.2
    · show run (.cat (.lit '-') reArch) _ _ _ _ = some r
      rw [run_cat, run_lit_cons]
      apply run_reArch a e ha.1 he
      have ht : List.take (pos + v1.length + 1 + v2.length - pos)
          (v1 ++ '-' :: (v2 ++ '-' :: (a ++ (".pkg.tar.".data ++ e)))) = v1 ++ '-' :: v2 := by
        have e1 : v1 ++ '-' :: (v2 ++ '-' :: (a ++ (".pkg.tar.".data ++ e)))
            = (v1 ++ '-' :: v2) ++ '-' :: (a ++ (".pkg.tar.".data ++ e)) := by simp
        rw [e1]
        apply List.take_left'
        simp
        omega
      rw [ht]
      exact hk
    · intro b t' hb ht
      show run (.cat (.lit '-') reArch) _ _ _ _ = none
      apply run_none_of_count '-'
      have := count_suffix_lt '-' _ b t' hb ht (by rfl)
      rw [List.count_cons_self, hca] at this
      have hm : minCount '-' (.cat (.lit '-') reArch) = 1 := by decide
      omega
  · intro b t' hb ht
    show run (.cat (.lit '-') .anyPlus) _ _ _ _ = none
    have hlt := count_suffix_lt '-' _ b t' hb ht (by rfl)
    rw [List.count_cons_self, hc2] at hlt
    cases hr : run (.cat (.lit '-') .anyPlus) (pos + v1.length + b.length) t' caps
        (fun p t cs => (fun p t cs => run (.cat (.lit '-') reArch) p t cs k) p t
          ((2, List.take (p - pos)
            (v1 ++ '-' :: (v2 ++ '-' :: (a ++ (".pkg.tar.".data ++ e))))) :: cs)) with
    | none => rfl
    | some res =>
      exfalso
      obtain ⟨p1, t1, cs1, h1, hk1⟩ := run_count '-' _ _ _ _ _ _ hr
      obtain ⟨p2, t2, cs2, h2, _⟩ := run_count '-' _ _ _ _ _ _ hk1
      have hm1 : minCount '-' (.cat (.lit '-') .anyPlus) = 1 := by decide
      have hm2 : minCount '-' (.cat (.lit '-') reArch) = 1 := by decide
      omega

theorem filenameBody_eq :
    filenameBody = .cat (.group 1 .anyPlus) (.cat (.lit '-') reVersion) := rfl

theorem run_filenameBody {R : Type} (n v1 v2 a e : List Char) (hn : Field n) (hv1 : Plain v1)
    (hv2 : Plain v2) (ha : Plain a) (he : IsExt e) (pos : Nat) (caps : Caps)
    (k : Nat → List Char → Caps → Option R) (r : R)
    (hk : k (pos + n.length + 1 + v1.length + 1 + v2.length + 1 + a.length + 9 + e.length) []
      ((4, e) :: (3, a) :: (2, v1 ++ '-' :: v2) :: (1, n) :: caps) = some r) :
    run filenameBody pos
      (n ++ '-' :: (v1 ++ '-' :: (v2 ++ '-' :: (a ++ (".pkg.tar.".data ++ e))))) caps k
      = some r := by
  have hc3 : (v1 ++ '-' :: (v2 ++ '-' :: (a ++ (".pkg.tar.".data ++ e)))).count '-' = 2 := by
    rw [List.count_append, List.count_cons_self, List.count_append, List.count_cons_self,
      count_arch a e ha he, List.count_eq_zero.mpr hv1.2, List.count_eq_zero.mpr hv2.2]
  rw [filenameBody_eq, run_cat, run_group, run_anyPlus]
  apply anyPlusGo_greedy _ n _ pos r hn.1 hn.2
  · show run (.cat (.lit '-') reVersion) _ _ _ _ = some r
    rw [run_cat, run_lit_cons]
    apply run_reVersion v1 v2 a e hv1 hv2 ha he
    simp only [Nat.add_sub_cancel_left, List.take_left']
    exact hk
  · intro b t' hb ht
    show run (.cat (.lit '-') reVersion) _ _ _ _ = none
    apply run_none_of_count '-'
    have := count_suffix_lt '-' _ b t' hb ht (by rfl)
    rw [List.count_cons_self, hc3] at this
    have hm : minCount '-' (.cat (.lit '-') reVersion) = 3 := by decide
    omega

theorem search_of_run (re : Regex) (pos : Nat) (s : List Char) (e : Nat) (cs : Caps)
    (h : run re pos s [] accept = some (e, cs)) :
    search re pos s = some (s.take (e - pos), cs) := by
  cases s with
  | nil => simp [search, h]
  | cons c rest => simp [search, h]

theorem filename_data (n v1 v2 a e : String) :
    (n ++ "-" ++ (v1 ++ "-" ++ v2) ++ "-" ++ a ++ ".pkg.tar." ++ e).data
      = n.data ++ '-' :: (v1.data ++ '-' :: (v2.data ++ '-' :: (a.data
          ++ (".pkg.tar.".data ++ e.data)))) := by
  simp [String.data_append]

theorem findSubmatch_anchored (n v1 v2 a e : String) (hn : Field n.data) (hv1 : Plain v1.data)
    (hv2 : Plain v2.data) (ha : Plain a.data) (he : IsExt e.data) :
    ∃ whole, FindStringSubmatch pacman.filenameRegex 4
        (n ++ "-" ++ (v1 ++ "-" ++ v2) ++ "-" ++ a ++ ".pkg.tar." ++ e)
      = [whole, n, v1 ++ "-" ++ v2, a, e] := by
  have hrun := run_filenameBody n.data v1.data v2.data a.data e.data hn hv1 hv2 ha he 0 []
    (fun p t cs => run .eol p t cs accept)
    (0 + n.data.length + 1 + v1.data.length + 1 + v2.data.length + 1 + a.data.length + 9
      + e.data.length,
      [(4, e.data), (3, a.data), (2, v1.data ++ '-' :: v2.data), (1, n.data)])
    (by simp [run, accept])
  have hs := search_of_run pacman.filenameRegex 0 _ _ _
    (show run pacman.filenameRegex 0 _ [] accept = _ from hrun)
  refine ⟨String.mk (List.take (0 + n.data.length + 1 + v1.data.length + 1 + v2.data.length + 1
    + a.data.length + 9 + e.data.length - 0) (n.data ++ '-' :: (v1.data ++ '-' :: (v2.data
    ++ '-' :: (a.data ++ (".pkg.tar.".data ++ e.data)))))), ?_⟩
  unfold FindStringSubmatch
  rw [filename_data, hs]
  simp [List.range, List.range.loop, capture, List.lookup, String.ext_iff, String.data_append]

theorem findSubmatch_unanchored (n v1 v2 a e : String) (hn : Field n.data)
    (hv1 : Plain v1.data) (hv2 : Plain v2.data) (ha : Plain a.data) (he : IsExt e.data) :
    ∃ whole, FindStringSubmatch packet.filenameRegex 4
        (n ++ "-" ++ (v1 ++ "-" ++ v2) ++ "-" ++ a ++ ".pkg.tar." ++ e)
      = [whole, n, v1 ++ "-" ++ v2, a, e] := by
  have hrun := run_filenameBody n.data v1.data v2.data a.data e.data hn hv1 hv2 ha he 0 []
    accept
    (0 + n.data.length + 1 + v1.data.length + 1 + v2.data.length + 1 + a.data.length + 9
      + e.data.length,
      [(4, e.data), (3, a.data), (2, v1.data ++ '-' :: v2.data), (1, n.data)])
    rfl
  have hs := search_of_run packet.filenameRegex 0 _ _ _
    (show run packet.filenameRegex 0 _ [] accept = _ from hrun)
  refine ⟨String.mk (List.take (0 + n.data.length + 1 + v1.data.length + 1 + v2.data.length + 1
    + a.data.length + 9 + e.data.length - 0) (n.data ++ '-' :: (v1.data ++ '-' :: (v2.data
    ++ '-' :: (a.data ++ (".pkg.tar.".data ++ e.data)))))), ?_⟩
  unfold FindStringSubmatch
  rw [filename_data, hs]
  simp [List.range, List.range.loop, capture, List.lookup, String.ext_iff, String.data_append]

/-- C7: for well-formed fields, parsing the formatted filename gives back the
same identity, both through `pacmanImpl.PacketFromFilename` and through
`packet.FromFilename`. -/
theorem filename_round_trip (name version arch compression : String)
    (h : WellFormed name version arch compression) :
    pacman.PacketFromFilename (pacman.pkg.Filename ⟨name, version, arch, compression⟩)
        = .ok ⟨name, version, arch, compression⟩ ∧
      packet.FromFilename (packet.Packet.Filename ⟨name, version, arch, compression⟩)
        = .ok ⟨name, version, arch, compression⟩ := by
  obtain ⟨hn, ⟨v1, v2, rfl, hv1, hv2⟩, ha, hc⟩ := h
  have he : IsExt compression.data := by
    rcases hc with rfl | rfl
    · exact Or.inl rfl
    · exact Or.inr rfl
  constructor
  · obtain ⟨w, hw⟩ := findSubmatch_anchored name v1 v2 arch compression hn hv1 hv2 ha he
    simp only [pacman.PacketFromFilename, pacman.pkg.Filename, hw]
  · obtain ⟨w, hw⟩ := findSubmatch_unanchored name v1 v2 arch compression hn hv1 hv2 ha he
    simp only [packet.FromFilename, packet.Packet.Filename, hw]

theorem filename_round_trip_witness :
    WellFormed "linux-lts" "6.1.2-1" "x86_64" "zst" ∧
      pacman.PacketFromFilename (pacman.pkg.Filename ⟨"linux-lts", "6.1.2-1", "x86_64", "zst"⟩)
        = .ok ⟨"linux-lts", "6.1.2-1", "x86_64", "zst"⟩ ∧
      packet.FromFilename (packet.Packet.Filename ⟨"linux-lts", "6.1.2-1", "x86_64", "zst"⟩)
        = .ok ⟨"linux-lts", "6.1.2-1", "x86_64", "zst"⟩ :=
  have hw : WellFormed "linux-lts" "6.1.2-1" "x86_64" "zst" :=
    ⟨by unfold Field; decide, ⟨"6.1.2", "1", by decide, by unfold Plain Field; decide,
      by unfold Plain Field; decide⟩, by unfold Plain Field; decide, Or.inr rfl⟩
  ⟨hw, filename_round_trip _ _ _ _ hw⟩

/-! ## Theorems: what the two parsers reject -/

theorem anyPlusGo_complete {R : Type} (k : Nat → List Char → Option R) :
    ∀ (a t : List Char) (pos : Nat), a ≠ [] → '\n' ∉ a →
      (k (pos + a.length) t).isSome = true → (anyPlusGo k pos (a ++ t)).isSome = true := by
  intro a
  induction a with
  | nil => intro t pos h; exact absurd rfl h
  | cons c a ih =>
    intro t pos _ hnl hk
    have hc : c ≠ '\n' := fun h => hnl (by simp [h])
    have hnl' : '\n' ∉ a := fun h => hnl (by simp [h])
    show (anyPlusGo k pos (c :: (a ++ t))).isSome = true
    unfold anyPlusGo
    rw [if_neg hc]
    cases a with
    | nil =>
      cases h1 : anyPlusGo k (pos + 1) ([] ++ t) with
      | some r => rfl
      | none => simpa using hk
    | cons d a =>
      have h1 := ih t (pos + 1) (by simp) hnl'
        (by simpa [Nat.add_assoc, Nat.add_comm 1] using hk)
      obtain ⟨r, hr⟩ := Option.isSome_iff_exists.mp h1
      rw [hr]
      rfl

theorem run_complete {R : Type} (re : Regex) (a : List Char) (hm : Matches re a) :
    anchorFree re = true →
    ∀ (pos : Nat) (t : List Char) (caps : Caps) (k : Nat → List Char → Caps → Option R),
      (∀ cs, (k (pos + a.length) t cs).isSome = true) →
      (run re pos (a ++ t) caps k).isSome = true := by
  induction hm with
  | eps => intro _ pos t caps k hk; simpa [run] using hk caps
  | lit c => intro _ pos t caps k hk; simpa [run] using hk caps
  | anyPlus a hne hnl =>
    intro _ pos t caps k hk
    rw [run_anyPlus]
    exact anyPlusGo_complete _ a t pos hne hnl (hk caps)
  | cat a b x y _ _ iha ihb =>
    intro haf pos t caps k hk
    simp only [anchorFree, Bool.and_eq_true] at haf
    rw [run_cat, List.append_assoc]
    apply iha haf.1
    intro cs
    apply ihb haf.2
    intro cs'
    simpa [Nat.add_assoc] using hk cs'
  | altLeft a b x _ iha =>
    intro haf pos t caps k hk
    simp only [anchorFree, Bool.and_eq_true] at haf
    have h1 := iha haf.1 pos t caps k hk
    obtain ⟨r, hr⟩ := Option.isSome_iff_exists.mp h1
    simp [run, hr]
  | altRight a b x _ ihb =>
    intro haf pos t caps k hk
    simp only [anchorFree, Bool.and_eq_true] at haf
    have h1 := ihb haf.2 pos t caps k hk
    simp only [run]
    cases h2 : run a pos (x ++ t) caps k with
    | some r => rfl
    | none => exact h1
  | group i r x _ ih =>
    intro haf pos t caps k hk
    simp only [anchorFree] at haf
    rw [run_group]
    apply ih haf
    intro cs
    exact hk _
  | bol => intro haf; simp [anchorFree] at haf
  | eol => intro haf; simp [anchorFree] at haf

theorem run_sound {R : Type} :
    ∀ (re : Regex) (pos : Nat) (s : List Char) (caps : Caps)
      (k : Nat → List Char → Caps → Option R) (res : R),
      run re pos s caps k = some res →
      ∃ a t cs, s = a ++ t ∧ Matches re a ∧ k (pos + a.length) t cs = some res := by
  intro re
  induction re with
  | eps =>
    intro pos s caps k res h
    exact ⟨[], s, caps, rfl, .eps, h⟩
  | lit d =>
    intro pos s caps k res h
    cases s with
    | nil => simp [run] at h
    | cons e rest =>
      simp only [run] at h
      split at h
      · rename_i hd
        subst hd
        exact ⟨[e], rest, caps, rfl, .lit e, h⟩
      · cases h
  | anyPlus =>
    intro pos s caps k res h
    rw [run_anyPlus] at h
    obtain ⟨b, t', hb, ht, hnl, hk⟩ := anyPlusGo_sound _ _ _ _ h
    exact ⟨b, t', caps, ht, .anyPlus b hb hnl, hk⟩
  | cat a b iha ihb =>
    intro pos s caps k res h
    rw [run_cat] at h
    obtain ⟨x, t1, cs1, h1, hm1, hk1⟩ := iha _ _ _ _ _ h
    obtain ⟨y, t2, cs2, h2, hm2, hk2⟩ := ihb _ _ _ _ _ hk1
    refine ⟨x ++ y, t2, cs2, by rw [h1, h2, List.append_assoc], .cat a b x y hm1 hm2, ?_⟩
    simpa [Nat.add_assoc] using hk2
  | alt a b iha ihb =>
    intro pos s caps k res h
    simp only [run] at h
    cases h1 : run a pos s caps k with
    | some r1 =>
      rw [h1] at h
      simp only [Option.some.injEq] at h
      subst h
      obtain ⟨x, t1, cs1, hs, hm, hk⟩ := iha _ _ _ _ _ h1
      exact ⟨x, t1, cs1, hs, .altLeft a b x hm, hk⟩
    | none =>
      rw [h1] at h
      obtain ⟨x, t1, cs1, hs, hm, hk⟩ := ihb _ _ _ _ _ h
      exact ⟨x, t1, cs1, hs, .altRight a b x hm, hk⟩
  | group i r ih =>
    intro pos s caps k res h
    rw [run_group] at h
    obtain ⟨x, t1, cs1, hs, hm, hk⟩ := ih _ _ _ _ _ h
    exact ⟨x, t1, _, hs, .group i r x hm, hk⟩
  | bol =>
    intro pos s caps k res h
    simp only [run] at h
    split at h
    · exact ⟨[], s, caps, rfl, .bol, h⟩
    · cases h
  | eol =>
    intro pos s caps k res h
    simp only [run] at h
    split at h
    · exact ⟨[], s, caps, rfl, .eol, h⟩
    · cases h

theorem filenameBody_anchorFree : anchorFree filenameBody = true := by decide

theorem search_bol_none (re : Regex) :
    ∀ (s : List Char) (pos : Nat), 0 < pos → search (.cat .bol re) pos s = none := by
  intro s
  induction s with
  | nil =>
    intro pos hpos
    have : pos ≠ 0 := by omega
    simp [search, run, this]
  | cons c rest ih =>
    intro pos hpos
    have : pos ≠ 0 := by omega
    simp [search, run, this, ih (pos + 1) (by omega)]

theorem findSubmatch_cases (re : Regex) (s : String) :
    (search re 0 s.data = none ∧ FindStringSubmatch re 4 s = []) ∨
    (∃ w cs, search re 0 s.data = some (w, cs) ∧
      FindStringSubmatch re 4 s
        = [String.mk w, capture cs 1, capture cs 2, capture cs 3, capture cs 4]) := by
  unfold FindStringSubmatch
  cases h : search re 0 s.data with
  | none => exact Or.inl ⟨rfl, rfl⟩
  | some r =>
    obtain ⟨w, cs⟩ := r
    exact Or.inr ⟨w, cs, rfl, by simp [List.range, List.range.loop]⟩

/-- The anchored parser rejects a filename exactly when the filename as a whole
does not match the pattern. -/
theorem pacman_rejects_iff (s : String) :
    pacman.PacketFromFilename s = .error pacman.ErrInvalidFilename ↔
      ¬ Matches filenameBody s.data := by
  unfold pacman.PacketFromFilename
  rcases findSubmatch_cases pacman.filenameRegex s with ⟨hs, hf⟩ | ⟨w, cs, hs, hf⟩
  · rw [hf]
    refine ⟨fun _ hm => ?_, fun _ => rfl⟩
    have hrun : (run pacman.filenameRegex 0 (s.data ++ []) [] accept).isSome = true := by
      show (run filenameBody 0 (s.data ++ []) []
        (fun p t cs => run .eol p t cs accept)).isSome = true
      apply run_complete filenameBody s.data hm filenameBody_anchorFree
      intro cs
      simp [run, accept]
    rw [List.append_nil] at hrun
    obtain ⟨r, hr⟩ := Option.isSome_iff_exists.mp hrun
    cases hd : s.data with
    | nil => rw [hd] at hs hr; simp [search, hr] at hs
    | cons c rest => rw [hd] at hs hr; simp [search, hr] at hs
  · rw [hf]
    refine ⟨fun h => (by cases h), fun hnm => absurd ?_ hnm⟩
    have hrun : ∃ r, run pacman.filenameRegex 0 s.data [] accept = some r := by
      cases hd : s.data with
      | nil =>
        rw [hd] at hs
        simp only [search] at hs
        split at hs
        · exact ⟨_, by assumption⟩
        · cases hs
      | cons c rest =>
        rw [hd] at hs
        simp only [search] at hs
        split at hs
        · exact ⟨_, by assumption⟩
        · have hnone : search pacman.filenameRegex (0 + 1) rest = none :=
            search_bol_none _ rest (0 + 1) (by omega)
          rw [hnone] at hs
          cases hs
    obtain ⟨r, hr⟩ := hrun
    have hr' : run filenameBody 0 s.data [] (fun p t cs => run .eol p t cs accept) = some r := hr
    obtain ⟨a, t, cs', hsa, hm, hk⟩ := run_sound _ _ _ _ _ _ hr'
    simp only [run] at hk
    split at hk
    · rename_i ht
      rw [hsa, ht, List.append_nil]
      exact hm
    · cases hk

theorem search_complete (re : Regex) (a post : List Char) (hm : Matches re a)
    (haf : anchorFree re = true) :
    ∀ (pre : List Char) (pos : Nat), (search re pos (pre ++ (a ++ post))).isSome = true := by
  have hhere : ∀ pos, (run re pos (a ++ post) [] accept).isSome = true := fun pos =>
    run_complete re a hm haf pos post [] accept (fun _ => rfl)
  intro pre
  induction pre with
  | nil =>
    intro pos
    obtain ⟨r, hr⟩ := Option.isSome_iff_exists.mp (hhere pos)
    cases hd : a ++ post with
    | nil => rw [hd] at hr; simp [search, hr]
    | cons c rest => rw [hd] at hr; simp [search, hr]
  | cons c pre ih =>
    intro pos
    show (search re pos (c :: (pre ++ (a ++ post)))).isSome = true
    unfold search
    split
    · rfl
    · exact ih (pos + 1)

theorem search_sound (re : Regex) :
    ∀ (s : List Char) (pos : Nat) (w : List Char) (cs : Caps),
      search re pos s = some (w, cs) →
      ∃ pre a post, s = pre ++ (a ++ post) ∧ Matches re a := by
  intro s
  induction s with
  | nil =>
    intro pos w cs h
    simp only [search] at h
    split at h
    · rename_i e cs' hr
      obtain ⟨a, t, _, hs, hm, _⟩ := run_sound _ _ _ _ _ _ hr
      exact ⟨[], a, t, hs, hm⟩
    · cases h
  | cons c rest ih =>
    intro pos w cs h
    simp only [search] at h
    split at h
    · rename_i e cs' hr
      obtain ⟨a, t, _, hs, hm, _⟩ := run_sound _ _ _ _ _ _ hr
      exact ⟨[], a, t, hs, hm⟩
    · obtain ⟨pre, a, post, hs, hm⟩ := ih _ _ _ h
      exact ⟨c :: pre, a, post, by rw [hs]; rfl, hm⟩

/-- The parser without anchors rejects a filename exactly when no part of it
matches the pattern. -/
theorem packet_rejects_iff (s : String) :
    packet.FromFilename s = .error "Invalid filename" ↔
      ¬ ∃ pre a post, s.data = pre ++ (a ++ post) ∧ Matches filenameBody a := by
  unfold packet.FromFilename
  rcases findSubmatch_cases packet.filenameRegex s with ⟨hs, hf⟩ | ⟨w, cs, hs, hf⟩
  · rw [hf]
    refine ⟨fun _ hex => ?_, fun _ => rfl⟩
    obtain ⟨pre, a, post, hsd, hm⟩ := hex
    have := search_complete filenameBody a post hm filenameBody_anchorFree pre 0
    rw [← hsd] at this
    rw [show search filenameBody 0 s.data = none from hs] at this
    cases this
  · rw [hf]
    exact ⟨fun h => (by cases h), fun hn => absurd (search_sound _ _ _ _ _ hs) hn⟩

/-! ## Theorems: the download manager -/

namespace cache

open packet

theorem evict_spec (env : Env) (P : Packet) :
    ∀ (l : List Packet) (st : State),
      (∀ e, e ∈ (evict env P l st).packets ↔
        e ∈ st.packets ∧
          ∀ q ∈ l, env.CompareVersions q.Version P.Version < 0 → e.Filename ≠ q.Filename) ∧
      (evict env P l st).downloads = st.downloads ∧
      (evict env P l st).sent = st.sent ∧
      (evict env P l st).directory = st.directory ∧
      (evict env P l st).requests = st.requests := by
  intro l
  induction l with
  | nil => intro st; simp [evict]
  | cons p rest ih =>
    intro st
    unfold evict
    by_cases hlt : env.CompareVersions p.Version P.Version < 0
    · simp only [hlt, if_true]
      obtain ⟨h1, h2, h3, h4, h5⟩ := ih
        { st with
          files := osRemove st.files (pathJoin st.directory p.Filename)
          packets := st.packets.Delete p.Filename }
      refine ⟨?_, h2, h3, h4, h5⟩
      intro e
      rw [h1]
      simp only [PacketSet.Delete, List.mem_filter, decide_eq_true_eq, List.mem_cons,
        forall_eq_or_imp]
      constructor
      · rintro ⟨⟨hm, hne⟩, hr⟩
        exact ⟨hm, fun _ => hne, hr⟩
      · rintro ⟨hm, hne, hr⟩
        exact ⟨⟨hm, hne hlt⟩, hr⟩
    · simp only [hlt, if_false]
      obtain ⟨h1, h2, h3, h4, h5⟩ := ih st
      refine ⟨?_, h2, h3, h4, h5⟩
      intro e
      rw [h1]
      simp only [List.mem_cons, forall_eq_or_imp]
      constructor
      · rintro ⟨hm, hr⟩
        exact ⟨hm, fun h => absurd h hlt, hr⟩
      · rintro ⟨hm, _, hr⟩
        exact ⟨hm, hr⟩

theorem callback_packets (d : download) (st : State) (err : Error) :
    (d.Callback st err).packets = st.packets ∧ (d.Callback st err).files = st.files ∧
      (d.Callback st err).downloads = st.downloads ∧
      (d.Callback st err).requests = st.requests := by
  unfold download.Callback
  cases d.Chan <;> simp

theorem callback_sent (d : download) (st : State) (err : Error) (ch : Nat)
    (h : d.Chan = some ch) : (d.Callback st err).sent = st.sent ++ [(ch, err)] := by
  unfold download.Callback
  rw [h]

/-- C2: when `finalizeDownload` renames the temp file successfully, the cached
set afterwards is the set before with exactly the entries of the packet's
(name, arch) that compare strictly older removed and the packet inserted;
every entry with that (name, arch) left in the set compares `≥` the packet. -/
theorem finalize_evicts_older (env : Env) (st : State) (dl : ongoingDownload)
    (hrename : env.renameOk dl.filename = true)
    (hkey : FilenameKeyed (dl.Dl.P :: st.packets))
    (hrefl : env.CompareVersions dl.Dl.P.Version dl.Dl.P.Version = 0) :
    (∀ e, e ∈ (finalizeDownload env st dl).packets ↔
      e = dl.Dl.P ∨ (e ∈ st.packets ∧
        ¬ (e.Name = dl.Dl.P.Name ∧ e.Arch = dl.Dl.P.Arch ∧
          env.CompareVersions e.Version dl.Dl.P.Version < 0))) ∧
    (∀ e ∈ (finalizeDownload env st dl).packets,
      e.Name = dl.Dl.P.Name → e.Arch = dl.Dl.P.Arch →
        0 ≤ env.CompareVersions e.Version dl.Dl.P.Version) := by
  have hmem : ∀ e, e ∈ (finalizeDownload env st dl).packets ↔
      e = dl.Dl.P ∨ (e ∈ st.packets ∧
        ¬ (e.Name = dl.Dl.P.Name ∧ e.Arch = dl.Dl.P.Arch ∧
          env.CompareVersions e.Version dl.Dl.P.Version < 0)) := by
    intro e
    unfold finalizeDownload
    simp only [hrename, if_true]
    rw [(callback_packets _ _ _).1]
    simp only [PacketSet.Insert, List.mem_cons, List.mem_filter, decide_eq_true_eq]
    rw [(evict_spec env dl.Dl.P _ _).1]
    simp only [PacketSet.FindOtherVersions, List.mem_filter, decide_eq_true_eq]
    constructor
    · rintro (h | ⟨⟨hm, hq⟩, _⟩)
      · exact Or.inl h
      · refine Or.inr ⟨hm, ?_⟩
        rintro ⟨hn, ha, hlt⟩
        exact hq e ⟨hm, hn, ha⟩ hlt rfl
    · rintro (h | ⟨hm, hnot⟩)
      · exact Or.inl h
      · by_cases he : e = dl.Dl.P
        · exact Or.inl he
        · refine Or.inr ⟨⟨hm, ?_⟩, ?_⟩
          · intro q ⟨hqm, hqn, hqa⟩ hlt hfn
            have : e = q := hkey e (List.mem_cons_of_mem _ hm) q (List.mem_cons_of_mem _ hqm) hfn
            subst this
            exact hnot ⟨hqn, hqa, hlt⟩
          · intro hfn
            exact he (hkey e (List.mem_cons_of_mem _ hm) _ (List.mem_cons_self _ _) hfn)
  refine ⟨hmem, ?_⟩
  intro e he hn ha
  rcases (hmem e).mp he with h | ⟨_, hnot⟩
  · rw [h, hrefl]
  · by_contra hlt
    exact hnot ⟨hn, ha, by omega⟩

theorem ioCopy_sum : ∀ (chunks : List Nat) (w written : Int),
    ioCopy chunks (w, written) = (w + (chunks.sum : Nat), written + (chunks.sum : Nat)) := by
  intro chunks
  induction chunks with
  | nil => intro w written; simp [ioCopy]
  | cons p rest ih =>
    intro w written
    simp only [ioCopy, countWriter.Write, ih, List.sum_cons, Nat.cast_add]
    simp [add_assoc]

theorem startDownloadLoop_ok (env : Env) (d : download) :
    ∀ (ms : List String) (st st1 : State) (started : ongoingDownload × String),
      startDownloadLoop env d ms st = (.ok started, st1) →
      started.1.Dl = d ∧ started.1.written = 0 ∧
      started.1.filename = pathJoin st.directory (d.P.Filename ++ ".part") ∧
      env.httpDo started.2 = .response 200 started.1.filesize ∧
      st1.directory = st.directory ∧ st1.packets = st.packets ∧ st1.sent = st.sent ∧
      st1.files = started.1.filename :: osRemove st.files started.1.filename ∧
      st1.downloads = st.downloads.set d.P.Filename started.1 := by
  intro ms
  induction ms with
  | nil => intro st st1 started h; simp [startDownloadLoop] at h
  | cons m rest ih =>
    intro st st1 started h
    unfold startDownloadLoop at h
    simp only at h
    split at h
    · have := ih _ _ _ h
      simpa using this
    · rename_i code len hresp
      split at h
      · have := ih _ _ _ h
        simpa using this
      · rename_i hcode
        split at h
        · simp only [Prod.mk.injEq, Except.ok.injEq] at h
          obtain ⟨h1, h2⟩ := h
          subst h1 h2
          simp only [ne_eq, Decidable.not_not] at hcode
          subst hcode
          simp [hresp]
        · simp at h

theorem lookup_delete {V : Type} (m : GoMap V) (k : String) : (m.delete k).get k = none := by
  unfold GoMap.delete GoMap.get
  induction m with
  | nil => rfl
  | cons e rest ih =>
    obtain ⟨a, v⟩ := e
    by_cases h : a = k
    · simpa [List.filter_cons, h] using ih
    · have hk : (k == a) = false := by simpa using fun e => h e.symm
      simpa [List.filter_cons, h, List.lookup_cons, hk] using ih

theorem mem_osRemove (files : List String) (name f : String) :
    f ∈ osRemove files name ↔ f ∈ files ∧ f ≠ name := by
  simp [osRemove]

theorem osRemove_cons_self (files : List String) (name : String) :
    osRemove (name :: osRemove files name) name = osRemove files name := by
  simp [osRemove, List.filter_cons, List.filter_filter]

theorem copier_outcome (env : Env) (body : Body) (st : State) (dl : ongoingDownload)
    (hw : dl.written = 0) :
    (copier env body st dl).2 = { dl with written := (body.chunks.sum : Nat) } ∧
    ((body.err = none ∧ dl.filesize ≤ (body.chunks.sum : Nat) ∧
        env.renameOk dl.filename = true ∧
        (copier env body st dl).1
          = finalizeDownload env st { dl with written := (body.chunks.sum : Nat) }) ∨
      (∃ e, (body.err ≠ none ∨ ((body.chunks.sum : Nat) : Int) < dl.filesize ∨
          env.renameOk dl.filename = false) ∧
        (copier env body st dl).1 = failedState st dl e)) := by
  unfold copier
  simp only [hw, ioCopy_sum, zero_add]
  cases herr : body.err with
  | some e =>
    exact ⟨rfl, Or.inr ⟨_, Or.inl (by simp), rfl⟩⟩
  | none =>
    simp only []
    by_cases hlt : ((body.chunks.sum : Nat) : Int) < dl.filesize
    · rw [if_pos hlt]
      exact ⟨rfl, Or.inr ⟨_, Or.inr (Or.inl hlt), rfl⟩⟩
    · rw [if_neg hlt]
      refine ⟨rfl, ?_⟩
      by_cases hren : env.renameOk dl.filename = true
      · exact Or.inl ⟨trivial, by omega, hren, rfl⟩
      · refine Or.inr ⟨wrap "rename failed" "Failed moving file",
          Or.inr (Or.inr (by simpa using hren)), ?_⟩
        unfold finalizeDownload failedState
        rw [if_neg hren]

theorem finalize_ok (env : Env) (st : State) (dl : ongoingDownload)
    (hren : env.renameOk dl.filename = true) :
    (∀ ch, dl.Dl.Chan = some ch →
      (finalizeDownload env st dl).sent = st.sent ++ [(ch, none)]) ∧
    (dl.Dl.Chan = none → (finalizeDownload env st dl).sent = st.sent) ∧
    dl.Dl.P ∈ (finalizeDownload env st dl).packets := by
  unfold finalizeDownload
  rw [if_pos hren]
  refine ⟨?_, ?_, ?_⟩
  · intro ch hch
    rw [callback_sent _ _ _ ch hch]
    simp only [(evict_spec env _ _ _).2.2.1]
  · intro hch
    unfold download.Callback
    rw [hch]
    simp only [(evict_spec env _ _ _).2.2.1]
  · rw [(callback_packets _ _ _).1]
    simp [PacketSet.Insert]

theorem failedState_spec (st : State) (dl : ongoingDownload) (e : String) :
    (failedState st dl e).packets = st.packets ∧
    (failedState st dl e).files = osRemove st.files dl.filename ∧
    (failedState st dl e).downloads = st.downloads.delete dl.Dl.P.Filename ∧
    (∀ ch, dl.Dl.Chan = some ch → (failedState st dl e).sent = st.sent ++ [(ch, some e)]) ∧
    (dl.Dl.Chan = none → (failedState st dl e).sent = st.sent) := by
  unfold failedState
  refine ⟨(callback_packets _ _ _).1, (callback_packets _ _ _).2.1,
    (callback_packets _ _ _).2.2.1, ?_, ?_⟩
  · intro ch hch
    rw [callback_sent _ _ _ ch hch]
  · intro hch
    unfold download.Callback
    rw [hch]

/-- C3: an accepted download with a non-nil channel gets exactly one value on
that channel, whatever the copy and the rename do, and the value is nil
exactly when the download was finalized into the cache. -/
theorem channel_exactly_once (env : Env) (st st1 : State) (d : download)
    (started : ongoingDownload × String) (ch : Nat)
    (hstart : startDownload env st d = (.ok started, st1)) (hch : d.Chan = some ch) :
    ∃ v, (runDownload env st1 started).1.sent = st1.sent ++ [(ch, v)] ∧
      (v = none ↔ ((env.body started.2).err = none ∧
        ¬ ((ioCopy (env.body started.2).chunks (0, 0)).1 < started.1.filesize) ∧
        env.renameOk started.1.filename = true)) ∧
      (v = none → d.P ∈ (runDownload env st1 started).1.packets) ∧
      (v ≠ none → (runDownload env st1 started).1.packets = st.packets) := by
  obtain ⟨hDl, hw, _, _, _, hpk, _, _, _⟩ := startDownloadLoop_ok env d _ _ _ _ hstart
  have hch' : started.1.Dl.Chan = some ch := by rw [hDl]; exact hch
  have hsum : (ioCopy (env.body started.2).chunks (0, 0)).1
      = (((env.body started.2).chunks.sum : Nat) : Int) := by
    rw [ioCopy_sum]; simp
  rw [hsum]
  unfold runDownload
  obtain ⟨_, hcase⟩ := copier_outcome env (env.body started.2) st1 started.1 hw
  rcases hcase with ⟨herr, hge, hren, hfin⟩ | ⟨e, hwhy, hfail⟩
  · rw [hfin]
    obtain ⟨hs, _, hm⟩ := finalize_ok env st1
      { started.1 with written := ((env.body started.2).chunks.sum : Nat) } hren
    refine ⟨none, hs ch hch', ⟨fun _ => ⟨herr, by omega, hren⟩, fun _ => rfl⟩, ?_,
      fun h => absurd rfl h⟩
    intro _
    rw [← hDl]
    exact hm
  · rw [hfail]
    obtain ⟨hp, _, _, hs, _⟩ := failedState_spec st1 started.1 e
    refine ⟨some e, hs ch hch', ⟨fun h => (by cases h), ?_⟩, fun h => (by cases h), ?_⟩
    · rintro ⟨h1, h2, h3⟩
      rcases hwhy with h | h | h
      · exact absurd h1 h
      · exact absurd h h2
      · rw [h3] at h; cases h
    · intro _
      rw [hp, hpk]

theorem channel_exactly_once_witness :
    startDownload sampleEnv sampleState sampleDownload
        = (.ok sampleStarted, sampleStartedState) ∧
      sampleDownload.Chan = some 7 ∧
      ∃ v, (runDownload sampleEnv sampleStartedState sampleStarted).1.sent
          = sampleStartedState.sent ++ [(7, v)] ∧
        (v = none ↔ ((sampleEnv.body sampleStarted.2).err = none ∧
          ¬ ((ioCopy (sampleEnv.body sampleStarted.2).chunks (0, 0)).1
            < sampleStarted.1.filesize) ∧
          sampleEnv.renameOk sampleStarted.1.filename = true)) ∧
        (v = none →
          sampleDownload.P ∈ (runDownload sampleEnv sampleStartedState sampleStarted).1.packets) ∧
        (v ≠ none →
          (runDownload sampleEnv sampleStartedState sampleStarted).1.packets
            = sampleState.packets) :=
  ⟨rfl, rfl,
    channel_exactly_once sampleEnv sampleState sampleStartedState sampleDownload sampleStarted 7
      rfl rfl⟩

/-- C4: when the background copy of an accepted download returns an error or
writes fewer bytes than the declared size, the temp `.part` file is removed,
the ongoing entry is removed, the cached set and the other files are left as
they were, and the value delivered on the channel is a non-nil error. -/
theorem failed_download_cleanup (env : Env) (st st1 : State) (d : download)
    (started : ongoingDownload × String)
    (hstart : startDownload env st d = (.ok started, st1))
    (hfail : (env.body started.2).err ≠ none ∨
      (ioCopy (env.body started.2).chunks (0, 0)).1 < started.1.filesize) :
    started.1.filename = pathJoin st.directory (d.P.Filename ++ ".part") ∧
    started.1.filename ∉ (runDownload env st1 started).1.files ∧
    (runDownload env st1 started).1.files = osRemove st.files started.1.filename ∧
    (runDownload env st1 started).1.downloads.get d.P.Filename = none ∧
    (runDownload env st1 started).1.packets = st.packets ∧
    (∀ ch, d.Chan = some ch →
      ∃ e, (runDownload env st1 started).1.sent = st1.sent ++ [(ch, some e)]) := by
  obtain ⟨hDl, hw, hfn, _, _, hpk, _, hfiles, _⟩ := startDownloadLoop_ok env d _ _ _ _ hstart
  have hsum : (ioCopy (env.body started.2).chunks (0, 0)).1
      = (((env.body started.2).chunks.sum : Nat) : Int) := by
    rw [ioCopy_sum]; simp
  rw [hsum] at hfail
  unfold runDownload
  obtain ⟨_, hcase⟩ := copier_outcome env (env.body started.2) st1 started.1 hw
  rcases hcase with ⟨herr, hge, _, _⟩ | ⟨e, _, hres⟩
  · rcases hfail with h | h
    · exact absurd herr h
    · omega
  · rw [hres]
    obtain ⟨hp, hf, hd, hs, _⟩ := failedState_spec st1 started.1 e
    have hf' : (failedState st1 started.1 e).files = osRemove st.files started.1.filename := by
      rw [hf, hfiles, osRemove_cons_self]
    refine ⟨hfn, ?_, hf', ?_, by rw [hp, hpk], ?_⟩
    · rw [hf', mem_osRemove]
      exact fun h => h.2 rfl
    · rw [hd, hDl]
      exact lookup_delete _ _
    · intro ch hch
      exact ⟨e, hs ch (by rw [hDl]; exact hch)⟩

theorem failed_download_cleanup_witness :
    startDownload truncatedEnv sampleState sampleDownload
        = (.ok sampleStarted, sampleStartedState) ∧
      ((truncatedEnv.body sampleStarted.2).err ≠ none ∨
        (ioCopy (truncatedEnv.body sampleStarted.2).chunks (0, 0)).1
          < sampleStarted.1.filesize) ∧
      (runDownload truncatedEnv sampleStartedState sampleStarted).1.files
        = osRemove sampleState.files sampleStarted.1.filename ∧
      (runDownload truncatedEnv sampleStartedState sampleStarted).1.packets
        = sampleState.packets :=
  have h := failed_download_cleanup truncatedEnv sampleState sampleStartedState sampleDownload
    sampleStarted rfl (Or.inr (by decide))
  ⟨rfl, Or.inr (by decide), h.2.2.1, h.2.2.2.2.1⟩

/-- C5, counterexample: an upstream that reports no length (`ContentLength`
`-1`) and sends five bytes is accepted, the download is finalized with nil on
the channel, and the written counter (5) differs from the declared size (-1). -/
theorem finalized_size_mismatch :
    startDownload unknownLengthEnv sampleState sampleDownload
        = (.ok unknownLengthStarted, unknownLengthState) ∧
      (runDownload unknownLengthEnv unknownLengthState unknownLengthStarted).1.sent
        = [(7, none)] ∧
      foo2 ∈ (runDownload unknownLengthEnv unknownLengthState unknownLengthStarted).1.packets ∧
      (runDownload unknownLengthEnv unknownLengthState unknownLengthStarted).2.written = 5 ∧
      (runDownload unknownLengthEnv unknownLengthState unknownLengthStarted).2.filesize = -1 ∧
      (runDownload unknownLengthEnv unknownLengthState unknownLengthStarted).2.written
        ≠ (runDownload unknownLengthEnv unknownLengthState unknownLengthStarted).2.filesize :=
  ⟨rfl, by decide, by decide, by decide, by decide, by decide⟩

/-- C5, amended: whenever an accepted download is finalized (nil is delivered
on its channel), the copy ended without error, the written counter is the
number of bytes the body delivered and is at least the declared size, and it
equals the declared size when the body delivered no more than that. -/
theorem finalized_written_ge (env : Env) (st st1 : State) (d : download)
    (started : ongoingDownload × String) (ch : Nat)
    (hstart : startDownload env st d = (.ok started, st1)) (hch : d.Chan = some ch)
    (hnil : (runDownload env st1 started).1.sent = st1.sent ++ [(ch, none)]) :
    (env.body started.2).err = none ∧
    (runDownload env st1 started).2.written = (((env.body started.2).chunks.sum : Nat) : Int) ∧
    (runDownload env st1 started).2.filesize = started.1.filesize ∧
    env.httpDo started.2 = .response 200 started.1.filesize ∧
    started.1.filesize ≤ (runDownload env st1 started).2.written ∧
    ((((env.body started.2).chunks.sum : Nat) : Int) ≤ started.1.filesize →
      (runDownload env st1 started).2.written = (runDownload env st1 started).2.filesize) := by
  obtain ⟨hDl, hw, _, hresp, _, _, _, _, _⟩ := startDownloadLoop_ok env d _ _ _ _ hstart
  unfold runDownload at hnil ⊢
  obtain ⟨hdl, hcase⟩ := copier_outcome env (env.body started.2) st1 started.1 hw
  rw [hdl]
  rcases hcase with ⟨herr, hge, _, _⟩ | ⟨e, _, hres⟩
  · exact ⟨herr, rfl, rfl, hresp, hge, fun h => by simp only; omega⟩
  · exfalso
    rw [hres, (failedState_spec st1 started.1 e).2.2.2.1 ch (by rw [hDl]; exact hch)] at hnil
    have := List.append_cancel_left hnil
    simp at this

theorem finalized_written_ge_witness :
    startDownload sampleEnv sampleState sampleDownload
        = (.ok sampleStarted, sampleStartedState) ∧
      sampleDownload.Chan = some 7 ∧
      (runDownload sampleEnv sampleStartedState sampleStarted).1.sent
        = sampleStartedState.sent ++ [(7, none)] ∧
      sampleStarted.1.filesize
        ≤ (runDownload sampleEnv sampleStartedState sampleStarted).2.written :=
  ⟨rfl, rfl, by decide,
    (finalized_written_ge sampleEnv sampleState sampleStartedState sampleDownload sampleStarted 7
      rfl rfl (by decide)).2.2.2.2.1⟩

theorem wrap_ne_admission (e : String) :
    wrap e "Error on starting background download" ≠ errAlreadyDownloading ∧
    wrap e "Error on starting background download" ≠ errAlreadyCached ∧
    wrap e "Error during background download" ≠ errAlreadyDownloading ∧
    wrap e "Error during background download" ≠ errAlreadyCached := by
  refine ⟨?_, ?_, ?_, ?_⟩ <;>
  · intro h
    have h1 := congrArg (fun s : String => s.data.head?) h
    simp [wrap, errAlreadyDownloading, errAlreadyCached, String.data_append] at h1

theorem errAlready_ne : errAlreadyDownloading ≠ errAlreadyCached := by decide

/-- C6: `backgroundDownload` returns the "already being downloaded" error
exactly when the filename is a key of the ongoing-downloads map, the "already
in cache" error exactly when it is not ongoing but found in the cached set, in
both cases without touching the state or issuing a request; otherwise it goes
on to `startDownload` with a fresh channel. -/
theorem backgroundDownload_admission (env : Env) (st : State) (dl : download) :
    ((backgroundDownload env st dl).1 = some errAlreadyDownloading ↔
      (st.downloads.get dl.P.Filename).isSome = true) ∧
    ((backgroundDownload env st dl).1 = some errAlreadyCached ↔
      ((st.downloads.get dl.P.Filename).isSome = false ∧
        (st.packets.ByFilename dl.P.Filename).isSome = true)) ∧
    (((st.downloads.get dl.P.Filename).isSome = true ∨
        (st.packets.ByFilename dl.P.Filename).isSome = true) →
      (backgroundDownload env st dl).2 = st) ∧
    ((st.downloads.get dl.P.Filename).isSome = false →
      (st.packets.ByFilename dl.P.Filename).isSome = false →
      backgroundDownload env st dl =
        match startDownload env { st with nextChan := st.nextChan + 1 }
            { dl with Chan := some st.nextChan } with
        | (.error e, st2) => (some (wrap e "Error on starting background download"), st2)
        | (.ok started, st2) =>
          match (runDownload env st2 started).1.sent.lookup st.nextChan with
          | some (some e) =>
            (some (wrap e "Error during background download"), (runDownload env st2 started).1)
          | _ => (none, (runDownload env st2 started).1)) := by
  by_cases h1 : (st.downloads.get dl.P.Filename).isSome = true
  · have hb : backgroundDownload env st dl = (some errAlreadyDownloading, st) := by
      unfold backgroundDownload; rw [if_pos h1]
    rw [hb]
    refine ⟨⟨fun _ => h1, fun _ => rfl⟩, ⟨fun h => ?_, fun h => ?_⟩, fun _ => rfl, fun h => ?_⟩
    · exact absurd (Option.some.inj h) errAlready_ne
    · rw [h1] at h; cases h.1
    · rw [h1] at h; cases h
  · have h1' : (st.downloads.get dl.P.Filename).isSome = false := by simpa using h1
    by_cases h2 : (st.packets.ByFilename dl.P.Filename).isSome = true
    · have hb : backgroundDownload env st dl = (some errAlreadyCached, st) := by
        unfold backgroundDownload; rw [if_neg h1, if_pos h2]
      rw [hb]
      refine ⟨⟨fun h => ?_, fun h => absurd h h1⟩, ⟨fun _ => ⟨h1', h2⟩, fun _ => rfl⟩,
        fun _ => rfl, fun _ h => ?_⟩
      · exact absurd (Option.some.inj h).symm errAlready_ne
      · rw [h2] at h; cases h
    · have h2' : (st.packets.ByFilename dl.P.Filename).isSome = false := by simpa using h2
      have hb : backgroundDownload env st dl =
          match startDownload env { st with nextChan := st.nextChan + 1 }
              { dl with Chan := some st.nextChan } with
          | (.error e, st2) => (some (wrap e "Error on starting background download"), st2)
          | (.ok started, st2) =>
            match (runDownload env st2 started).1.sent.lookup st.nextChan with
            | some (some e) =>
              (some (wrap e "Error during background download"),
                (runDownload env st2 started).1)
            | _ => (none, (runDownload env st2 started).1) := by
        unfold backgroundDownload; rw [if_neg h1, if_neg h2]
      have hne : (backgroundDownload env st dl).1 ≠ some errAlreadyDownloading ∧
          (backgroundDownload env st dl).1 ≠ some errAlreadyCached := by
        rw [hb]
        split
        · rename_i e st2 _
          exact ⟨fun h => (wrap_ne_admission e).1 (Option.some.inj h),
            fun h => (wrap_ne_admission e).2.1 (Option.some.inj h)⟩
        · split
          · rename_i e _
            exact ⟨fun h => (wrap_ne_admission e).2.2.1 (Option.some.inj h),
              fun h => (wrap_ne_admission e).2.2.2 (Option.some.inj h)⟩
          · exact ⟨fun h => (by cases h), fun h => (by cases h)⟩
      refine ⟨⟨fun h => absurd h hne.1, fun h => absurd h h1⟩,
        ⟨fun h => absurd h hne.2, fun h => absurd h.2 h2⟩, ?_, fun _ _ => hb⟩
      rintro (h | h)
      · exact absurd h h1
      · exact absurd h h2

theorem backgroundDownload_admission_witness :
    ((sampleStartedState.downloads.get sampleDownload.P.Filename).isSome = true ∨
        (sampleStartedState.packets.ByFilename sampleDownload.P.Filename).isSome = true) ∧
      (backgroundDownload sampleEnv sampleStartedState sampleDownload).2 = sampleStartedState ∧
      (backgroundDownload sampleEnv sampleStartedState sampleDownload).1
        = some errAlreadyDownloading :=
  ⟨Or.inl (by decide),
    (backgroundDownload_admission sampleEnv sampleStartedState sampleDownload).2.2.1
      (Or.inl (by decide)),
    (backgroundDownload_admission sampleEnv sampleStartedState sampleDownload).1.mpr
      (by decide)⟩

theorem finalize_evicts_older_witness :
    sampleEnv.renameOk "/var/cache/foo-2.0-1-x86_64.pkg.tar.zst.part" = true ∧
    FilenameKeyed (foo2 :: sampleState.packets) ∧
    (∀ e, e ∈ (finalizeDownload sampleEnv sampleState
        ⟨10, sampleDownload, 10, "/var/cache/foo-2.0-1-x86_64.pkg.tar.zst.part"⟩).packets ↔
      e = foo2 ∨ (e ∈ sampleState.packets ∧
        ¬ (e.Name = foo2.Name ∧ e.Arch = foo2.Arch ∧
          sampleEnv.CompareVersions e.Version foo2.Version < 0))) :=
  ⟨rfl, by unfold FilenameKeyed; decide,
    (finalize_evicts_older sampleEnv sampleState
      ⟨10, sampleDownload, 10, "/var/cache/foo-2.0-1-x86_64.pkg.tar.zst.part"⟩
      rfl (by unfold FilenameKeyed; decide) (by decide)).1⟩

/-! ### The partial-file reader -/

theorem file_read_spec (f : File) (m : Nat) :
    (f.Read m).1.length ≤ m ∧ (f.Read m).2.2.offset = f.offset + (f.Read m).1.length := by
  unfold File.Read
  simp only []
  split
  · simp
  · exact ⟨by simp [List.length_take], rfl⟩

/-- While the reader's position is the file's offset, a `Read` returns only
bytes below the limit it loaded, and the position follows the offset. -/
theorem read_safe (d : dynamicLimitReaderWithSize) (limit : Int) (n : Nat)
    (hpos : d.pos = (d.R.offset : Int)) :
    (d.Read limit n).2.pos = ((d.Read limit n).2.R.offset : Int) ∧
    ((d.R.offset : Int) + ((d.Read limit n).1.1.length : Int) ≤ max limit d.R.offset) := by
  unfold dynamicLimitReaderWithSize.Read
  by_cases h : d.pos ≥ limit
  · rw [if_pos h]
    exact ⟨hpos, by simp⟩
  · rw [if_neg h]
    simp only []
    by_cases hn : d.pos + (n : Int) > limit
    · rw [if_pos hn]
      obtain ⟨h1, h2⟩ := file_read_spec d.R (limit - d.pos).toNat
      have h3 : ((limit - d.pos).toNat : Int) = limit - d.pos := Int.toNat_of_nonneg (by omega)
      refine ⟨by rw [h2]; push_cast; omega, ?_⟩
      have : (d.R.offset : Int) + ((d.R.Read (limit - d.pos).toNat).1.length : Int) ≤ limit := by
        omega
      exact le_trans this (le_max_left _ _)
    · rw [if_neg hn]
      obtain ⟨h1, h2⟩ := file_read_spec d.R n
      refine ⟨by rw [h2]; push_cast; omega, ?_⟩
      have : (d.R.offset : Int) + ((d.R.Read n).1.length : Int) ≤ limit := by omega
      exact le_trans this (le_max_left _ _)

/-- C1, the failing run: a seek to offset `-1` from the start is rejected but
leaves the reader's position at `-1` while the file stays at offset 0; the
next `Read` with limit 4 and a buffer of 8 bytes then returns the five bytes at
offsets 0 to 4, the last of which is not below the limit. -/
theorem reader_reads_past_limit :
    (sampleReader.Seek (-1) 0).1 = (-1, some "Seek out of bounds") ∧
    (sampleReader.Seek (-1) 0).2.pos = -1 ∧
    (sampleReader.Seek (-1) 0).2.R.offset = 0 ∧
    ((sampleReader.Seek (-1) 0).2.Read 4 8).1 = ([0, 1, 2, 3, 4], none) := by
  decide

/-! ### The repo cache -/

theorem downloadRepo_repos (env : RepoEnv) (st : RepoState) (dirpath : String) :
    (downloadRepo env st dirpath).2.repos = st.repos := by
  unfold downloadRepo
  split
  · rfl
  · try dsimp only
    split
    · rfl
    · try dsimp only
      split
      · rfl
      · split
        · split <;> rfl
        · rfl

/-- No call of `addRepo` changes the set of registered repositories. -/
theorem addRepo_repos (env : RepoEnv) (st : RepoState) (repo : String) :
    (addRepo env st repo).2.repos = st.repos := by
  unfold addRepo
  split
  · rfl
  · exact downloadRepo_repos env st repo

/-- On a registered repository `addRepo` returns the "repo already available"
error and changes nothing. -/
theorem addRepo_registered (env : RepoEnv) (st : RepoState) (repo : String)
    (h : repo ∈ st.repos) : addRepo env st repo = (some errRepoAvailable, st) := by
  unfold addRepo
  rw [if_pos h]

/-- C9, the failing run: `addRepo` of an unregistered repository whose index
is fetched without error returns nil and leaves the repository unregistered,
so that the next `addRepo` fetches the index again and returns nil again. -/
theorem addRepo_does_not_register :
    (addRepo sampleRepoEnv sampleRepoState "core/os/x86_64").1 = none ∧
    "core/os/x86_64" ∉ (addRepo sampleRepoEnv sampleRepoState "core/os/x86_64").2.repos ∧
    (addRepo sampleRepoEnv (addRepo sampleRepoEnv sampleRepoState "core/os/x86_64").2
      "core/os/x86_64").1 = none ∧
    (addRepo sampleRepoEnv (addRepo sampleRepoEnv sampleRepoState "core/os/x86_64").2
      "core/os/x86_64").2.fetched
      = ["/var/cache/core/os/x86_64/core.db", "/var/cache/core/os/x86_64/core.db"] := by
  decide

/-! ### The upgrade list of `updatePackets` -/

theorem visitLoop_spec (cmp : String → String → Int) (p : pacman.pkg) (path : String) :
    ∀ (others : List pacman.pkg) (acc : List String),
      visitLoop cmp p path others acc
        = if (∃ other ∈ others, cmp p.version other.version > 0) then acc ++ [path] else acc := by
  intro others
  induction others with
  | nil => intro acc; simp [visitLoop]
  | cons o rest ih =>
    intro acc
    unfold visitLoop
    by_cases h : cmp p.version o.version > 0
    · rw [if_pos h, if_pos ⟨o, List.mem_cons_self _ _, h⟩]
    · rw [if_neg h, ih]
      by_cases h2 : ∃ other ∈ rest, cmp p.version other.version > 0
      · obtain ⟨x, hx, hc⟩ := h2
        rw [if_pos ⟨x, hx, hc⟩, if_pos ⟨x, List.mem_cons_of_mem _ hx, hc⟩]
      · rw [if_neg h2, if_neg]
        rintro ⟨x, hx, hc⟩
        rcases List.mem_cons.mp hx with rfl | hx
        · exact h hc
        · exact h2 ⟨x, hx, hc⟩

theorem foldl_visit (cmp : String → String → Int) (fov : pacman.pkg → List pacman.pkg)
    (mp : String) :
    ∀ (entries : List pacman.pkg) (acc : List String),
      entries.foldl
          (fun acc p => visitLoop cmp p (pathJoin mp p.Filename) (fov p) acc) acc
        = acc ++ (entries.filter
            (fun p => (fov p).any (fun o => decide (cmp p.version o.version > 0)))).map
            (fun p => pathJoin mp p.Filename) := by
  intro entries
  induction entries with
  | nil => intro acc; simp
  | cons p rest ih =>
    intro acc
    rw [List.foldl_cons, ih, visitLoop_spec]
    by_cases h : ∃ other ∈ fov p, cmp p.version other.version > 0
    · have hany : (fov p).any (fun o => decide (cmp p.version o.version > 0)) = true := by
        simpa [List.any_eq_true] using h
      rw [if_pos h]
      simp only [List.filter_cons, hany, if_true, List.map_cons, List.append_assoc,
        List.singleton_append]
    · have hany : (fov p).any (fun o => decide (cmp p.version o.version > 0)) = false := by
        simpa [List.any_eq_true] using h
      rw [if_neg h]
      simp only [List.filter_cons, hany, Bool.false_eq_true, if_false]

/-- C10, counterexample: when the index yields the entry `foo` 2.0-1 twice and
the cache holds `foo` 1.0-1, the path of `foo` 2.0-1 is enqueued twice. -/
theorem toDownload_duplicate :
    toDownload sampleCompare sampleOthers "core/os/x86_64" [upstreamFoo, upstreamFoo]
      = ["core/os/x86_64/foo-2.0-1-x86_64.pkg.tar.zst",
         "core/os/x86_64/foo-2.0-1-x86_64.pkg.tar.zst"] ∧
    ¬ (toDownload sampleCompare sampleOthers "core/os/x86_64"
        [upstreamFoo, upstreamFoo]).Nodup := by
  decide

/-- C10, amended: the enqueued list holds the path of each yielded upstream
entry that has a strictly older cached version, once per such yielded entry
and in index order; so a path is enqueued exactly when an entry with that path
is out of date, and no path occurs twice when the yielded entries have
pairwise distinct paths. -/
theorem toDownload_spec (cmp : String → String → Int) (fov : pacman.pkg → List pacman.pkg)
    (mp : String) (entries : List pacman.pkg) :
    toDownload cmp fov mp entries
        = (entries.filter
            (fun p => (fov p).any (fun o => decide (cmp p.version o.version > 0)))).map
            (fun p => pathJoin mp p.Filename) ∧
    (∀ path, path ∈ toDownload cmp fov mp entries ↔
      ∃ p ∈ entries, OutOfDate cmp fov p ∧ pathJoin mp p.Filename = path) ∧
    ((entries.map (fun p => pathJoin mp p.Filename)).Nodup →
      (toDownload cmp fov mp entries).Nodup) := by
  have heq : toDownload cmp fov mp entries
      = (entries.filter
          (fun p => (fov p).any (fun o => decide (cmp p.version o.version > 0)))).map
          (fun p => pathJoin mp p.Filename) := by
    unfold toDownload
    rw [foldl_visit]
    simp
  refine ⟨heq, ?_, ?_⟩
  · intro path
    rw [heq]
    simp only [List.mem_map, List.mem_filter, List.any_eq_true, decide_eq_true_eq, OutOfDate]
    constructor
    · rintro ⟨p, ⟨hp, o, ho, hc⟩, rfl⟩
      exact ⟨p, hp, ⟨o, ho, hc⟩, rfl⟩
    · rintro ⟨p, hp, ⟨o, ho, hc⟩, rfl⟩
      exact ⟨p, ⟨hp, o, ho, hc⟩, rfl⟩
  · intro hnd
    rw [heq]
    exact (List.filter_sublist _).map _ |>.nodup hnd

theorem toDownload_spec_witness :
    ([upstreamFoo, (⟨"bar", "0.9-3", "any", "xz"⟩ : pacman.pkg)].map
        (fun p => pathJoin "core/os/x86_64" p.Filename)).Nodup ∧
      (toDownload sampleCompare sampleOthers "core/os/x86_64"
        [upstreamFoo, ⟨"bar", "0.9-3", "any", "xz"⟩]).Nodup :=
  ⟨by decide,
    (toDownload_spec sampleCompare sampleOthers "core/os/x86_64"
      [upstreamFoo, ⟨"bar", "0.9-3", "any", "xz"⟩]).2.2 (by decide)⟩

end cache

/-! ## Theorems: trailing text after the compression tag -/

/-- C8, the failing input: `packet.FromFilename`, whose pattern has no anchors,
accepts a temp-file name with `.part` after the compression tag, which the
anchored pattern of `pacmanImpl.PacketFromFilename` rejects. -/
theorem fromFilename_accepts_trailing_text :
    packet.FromFilename "foo-1.0-1-x86_64.pkg.tar.zst.part"
        = .ok ⟨"foo", "1.0-1", "x86_64", "zst"⟩ ∧
      pacman.PacketFromFilename "foo-1.0-1-x86_64.pkg.tar.zst.part"
        = .error pacman.ErrInvalidFilename :=
  ⟨rfl, rfl⟩

end Smartmirror
